import Mathlib

/-!
Verification development for the WikiSurfing (tequila) content-graph
document store.  The definitions below are a shallow embedding of the
Python sources:

* `src/core/src/tequila/storage/docs.py`   — document/graph store operations
* `src/core/src/tequila/storage/space.py`  — the lock-guarded snapshot session
* `src/core/src/tequila/utils.py`          — the term highlighter
* `src/core/src/tequila/parse_links.py`    — the link resolver
* `src/core/src/tequila/pipeline.py`       — the relatedness ranker's walk

Documents are values of an inductive `Doc` (the `ProtoArticle`/`Article`
tagged union), the NetworkX `MultiGraph` is a node `Finset` plus a list of
keyed edges (an undirected multigraph keyed edge `(u, v, key)` equals
`(v, u, key)`; `add_edge` with an existing key between the same endpoints
replaces rather than duplicates, hence the guarded append), and the blob
store is an association list from title to document.
-/

namespace Tequila

/-- One keyed edge of the NetworkX `MultiGraph`: endpoints `u`, `v` and the
key (the authoring document's title).  The graph is undirected, so the
pair of endpoints is unordered: see `edgeIs`. -/
structure GEdge where
  u : String
  v : String
  key : String
deriving DecidableEq, Repr

/-- `e` is the (undirected) edge between `a` and `b` with key `k`. -/
def GEdge.is (e : GEdge) (a b k : String) : Bool :=
  e.key == k && ((e.u == a && e.v == b) || (e.u == b && e.v == a))

/-- `e` is incident to node `n`. -/
def GEdge.touches (e : GEdge) (n : String) : Bool :=
  e.u == n || e.v == n

/-- Two keyed edges are the same undirected keyed edge. -/
def sameEdge (e f : GEdge) : Bool :=
  e.is f.u f.v f.key

/-- The NetworkX `MultiGraph[str]`: a node set and a list of keyed edges
(kept in insertion order, duplicates prevented by `Graph.addEdge`). -/
structure Graph where
  nodes : Finset String
  edges : List GEdge
deriving DecidableEq

/-- The graph `MultiGraph()` starts from (`Space._read` when no snapshot
blob exists). -/
def Graph.empty : Graph := ⟨∅, []⟩

/-- `g.add_node(t)`. -/
def Graph.addNode (g : Graph) (t : String) : Graph :=
  { g with nodes := insert t g.nodes }

/-- `g.has_node(t)`. -/
def Graph.hasNode (g : Graph) (t : String) : Bool :=
  t ∈ g.nodes

/-- `g.add_edge(a, b, key=k)`: both endpoints become nodes; if the keyed
edge already exists it is replaced (no duplicate), else appended. -/
def Graph.addEdge (g : Graph) (a b k : String) : Graph :=
  { nodes := insert a (insert b g.nodes)
    edges := if g.edges.any (·.is a b k) then g.edges
             else g.edges ++ [⟨a, b, k⟩] }

/-- `g.remove_edge(a, b, key=k)`. -/
def Graph.removeEdge (g : Graph) (a b k : String) : Graph :=
  { g with edges := g.edges.filter (fun e => !(e.is a b k)) }

/-- `g.remove_node(n)`: drops the node and every incident edge. -/
def Graph.removeNode (g : Graph) (n : String) : Graph :=
  { nodes := g.nodes.erase n
    edges := g.edges.filter (fun e => !(e.touches n)) }

/-- `len(list(g.edges(n)))`: the number of edges incident to `n`
(a self-loop is reported once per key by NetworkX's edge view). -/
def Graph.incidentCount (g : Graph) (n : String) : Nat :=
  (g.edges.filter (·.touches n)).length

/-- A document: `ProtoArticle` (placeholder: title and alternative titles)
or `Article` (title, alternative titles, summary, sections as
(title, content) pairs, and links from target title to the alias set the
target was referenced by).  `article.py`'s `kind` discriminator is the
constructor. -/
inductive Doc where
  | proto (title : String) (alt : Finset String)
  | article (title : String) (alt : Finset String) (summary : String)
      (sections : List (String × String)) (links : List (String × Finset String))
deriving DecidableEq

def Doc.title : Doc → String
  | .proto t _ => t
  | .article t _ _ _ _ => t

def Doc.isArticle : Doc → Bool
  | .proto _ _ => false
  | .article _ _ _ _ _ => true

def Doc.isProto : Doc → Bool
  | .proto _ _ => true
  | .article _ _ _ _ _ => false

/-- `d.isArticle` of an optional read result (absent counts as not an
article). -/
def isArticleOpt : Option Doc → Bool
  | some d => d.isArticle
  | none => false

/-- `d.isProto` of an optional read result. -/
def isProtoOpt : Option Doc → Bool
  | some d => d.isProto
  | none => false

/-- One `Space`'s transient session state: the loaded relationship graph
plus the document blob collection (title ↦ serialized document, the
`{docs_path}/{title}.json` files). -/
structure Store where
  graph : Graph
  docs : List (String × Doc)
deriving DecidableEq

/-- Read the blob at `{path}/{name}.json` (absent = `NotFound`). -/
def lookupDoc (s : Store) (name : String) : Option Doc :=
  (s.docs.find? (fun p => p.1 == name)).map (·.2)

/-- `opendal.write` of a document blob: the slot for the document's own
title is replaced. -/
def Store.writeBlob (s : Store) (d : Doc) : Store :=
  { s with docs := s.docs.filter (fun p => !(p.1 == d.title)) ++ [(d.title, d)] }

/-- `opendal.delete` of the blob at `{path}/{t}.json`. -/
def Store.deleteBlob (s : Store) (t : String) : Store :=
  { s with docs := s.docs.filter (fun p => !(p.1 == t)) }

def Store.addNode (s : Store) (t : String) : Store :=
  { s with graph := s.graph.addNode t }

def Store.addEdge (s : Store) (a b k : String) : Store :=
  { s with graph := s.graph.addEdge a b k }

def Store.removeEdge (s : Store) (a b k : String) : Store :=
  { s with graph := s.graph.removeEdge a b k }

def Store.removeNode (s : Store) (n : String) : Store :=
  { s with graph := s.graph.removeNode n }

/-- `_read_doc`: a document is returned only when the graph has the node
AND the blob exists; a node with a missing blob reads as `None`
(`NotFound` is caught), never as an error. -/
def readDocI (s : Store) (name : String) : Option Doc :=
  if name ∈ s.graph.nodes then lookupDoc s name else none

/-- The `ProtoArticle` path of `_upsert_doc` (reached recursively from
`_write_doc` for every link of an `Article`):
* absent → `_write_doc(proto, write_graph=True)`: add the node, write the blob;
* existing proto → merge `alt_title` into the existing document and
  `_write_doc(readed, write_graph=False)` (blob only, written under the
  stored document's own title);
* existing article → keep it (no-op). -/
def upsertProtoDoc (s : Store) (title : String) (alt : Finset String) : Store :=
  match readDocI s title with
  | none => (s.addNode title).writeBlob (.proto title alt)
  | some (.proto t a) => s.writeBlob (.proto t (a ∪ alt))
  | some (.article _ _ _ _ _) => s

/-- The graph half of `_write_doc` for an `Article`: add the node, then for
every `(href, alters)` in `links` upsert a `ProtoArticle(href, alters)`
and add the edge `(title, href, key=title)`. -/
def writeArticleGraph (s : Store) (t : String)
    (links : List (String × Finset String)) : Store :=
  links.foldl (fun st p => (upsertProtoDoc st p.1 p.2).addEdge t p.1 t)
    (s.addNode t)

/-- `_write_doc`: optional graph update (node for a proto, node + link
processing for an article), then the blob write. -/
def writeDocI (s : Store) (d : Doc) (writeGraph : Bool) : Store :=
  if writeGraph then
    match d with
    | .proto t a => (s.addNode t).writeBlob (.proto t a)
    | .article t alt sm secs links =>
        (writeArticleGraph s t links).writeBlob (.article t alt sm secs links)
  else s.writeBlob d

/-- The targets of the edges authored by (keyed by) `t`:
`[target for source, target, key in g.edges(t, keys=True) if key == t]`. -/
def collectOldLinks (s : Store) (t : String) : List String :=
  ((s.graph.edges.filter (fun e => e.touches t && e.key == t)).map
    (fun e => if e.u == t then e.v else e.u))

/-- One iteration of `_upsert_doc`'s cleanup loop for old link `link` of
the replaced article `t`: read the target (skip when unreadable), remove
the edge `(t, link, key=t)`, and if the target is a proto-article with
zero remaining incident edges, remove its node and delete its blob. -/
def cleanupLink (t : String) (s : Store) (link : String) : Store :=
  match readDocI s link with
  | none => s
  | some d =>
    let s1 := s.removeEdge t link t
    match d with
    | .article _ _ _ _ _ => s1
    | .proto _ _ =>
        if s1.graph.incidentCount link = 0 then
          (s1.removeNode link).deleteBlob link
        else s1

/-- The whole cleanup loop of the article-over-article branch. -/
def cleanupFold (t : String) (links : List String) (s : Store) : Store :=
  links.foldl (cleanupLink t) s

/-- `_upsert_doc`: four-way merge against the existing document at
`content.title` (`readed`), with replace-with-cleanup when both are
articles. -/
def upsertDoc (s : Store) (content : Doc) : Store :=
  match readDocI s content.title, content with
  | none, _ => writeDocI s content true
  | some (.proto t a), .proto _ alt => s.writeBlob (.proto t (a ∪ alt))
  | some (.proto _ _), .article _ _ _ _ _ => writeDocI s content true
  | some (.article _ _ _ _ _), .proto _ _ => s
  | some (.article rt _ _ _ _), .article _ _ _ _ _ =>
      writeDocI (cleanupFold rt (collectOldLinks s rt) s) content true

/-! ## `storage/space.py`: the lock-guarded snapshot session

`Space.mutex` acquires the cross-process lock, deserializes the graph
snapshot (`_read`: the stored blob, or a fresh `MultiGraph()` when the
snapshot blob does not exist), runs the session body on it, and — only
when the body did not raise — serializes the resulting graph back
(`_write`).  On an exception the snapshot blob is never touched.  The
session body is modelled as a function from the loaded state to
`Except ε (α × σ)` (result value and final graph); `runMutex` returns the
snapshot blob after the session, the list of snapshot writes the session
performed, and the body's outcome. -/

/-- Outcome of one `Space.mutex` session over snapshot state `σ`. -/
structure SessionOutcome (σ α ε : Type) where
  snapshot : Option σ
  writes : List σ
  result : Except ε α

/-- `Space._read`: the stored snapshot when it exists, else the default
(a fresh `MultiGraph()`). -/
def loadSnapshot {σ : Type} (dflt : σ) (stored : Option σ) : σ :=
  stored.getD dflt

/-- `Space.mutex`: load, run, and re-serialize only on success. -/
def runMutex {σ α ε : Type} (dflt : σ) (stored : Option σ)
    (body : σ → Except ε (α × σ)) : SessionOutcome σ α ε :=
  match body (loadSnapshot dflt stored) with
  | .error e => ⟨stored, [], .error e⟩
  | .ok (a, g) => ⟨some g, [g], .ok a⟩

/-- The session body of `read_doc`: runs `_read_doc` against the loaded
graph and the document blobs and leaves the graph unchanged. -/
def readDocBody (fs : List (String × Doc)) (name : String)
    (g : Graph) : Except String (Option Doc × Graph) :=
  .ok (readDocI ⟨g, fs⟩ name, g)

/-! ## `pipeline.py`: the relatedness ranker's collection walk

`_get_proto_with_related_articles` reads the seed document (returning
`None` when absent), copies the graph under the mutex, computes
personalized PageRank over the undirected projection and sorts the nodes
by descending score (floating-point scoring is not embedded: the
score-descending node list is a parameter), then walks that list:
unreadable nodes and the seed document are skipped, articles are
collected, and the walk stops as soon as `top_k <= len(collected)` —
a check made only after a possible append. -/

/-- The collection loop over the score-sorted node list. -/
def collectRelated (s : Store) (title : String) (topK : Nat) :
    List String → List Doc → List Doc
  | [], acc => acc
  | n :: rest, acc =>
    match readDocI s n with
    | none => collectRelated s title topK rest acc
    | some d =>
      if d.title == title then collectRelated s title topK rest acc
      else
        let acc1 := if d.isArticle then acc ++ [d] else acc
        if topK ≤ acc1.length then acc1
        else collectRelated s title topK rest acc1

/-- `_get_proto_with_related_articles` (with the score-descending node
list abstracted as `sortedNodes`). -/
def getProtoWithRelated (s : Store) (title : String) (topK : Nat)
    (sortedNodes : List String) : Option (Doc × List Doc) :=
  match readDocI s title with
  | none => none
  | some a => some (a, collectRelated s title topK sortedNodes [])

/-! ## `utils.py`: the term highlighter

`replace_text_with_links(text, terms)` is embedded over `List Char`
(Python string indices become list positions).  `re.finditer` of an
escaped term with `re.IGNORECASE` yields, per term, the successive
leftmost case-insensitive occurrences scanning left to right, each next
search starting at the end of the previous match (one past it for a
zero-width match).  Case-insensitivity is modelled by `Char.toLower` on
both sides. -/

/-- One entry of the `matches` list (`_MatchDict` without the constant
`href` field): `start`, `end` (called `stop` here), the term, and the
length `end - start`. -/
structure Mtch where
  start : Nat
  stop : Nat
  term : List Char
  len : Nat
deriving DecidableEq

/-- The term occurs (case-insensitively) in `text` at position `i`. -/
def occAt (pat text : List Char) (i : Nat) : Bool :=
  decide (i + pat.length ≤ text.length) &&
    ((text.drop i).take pat.length).map Char.toLower == pat.map Char.toLower

/-- `re.finditer` for one escaped term: successive matches scanning left
to right, never overlapping one another; the fuel is a bound on the
number of matches (`text.length + 1` suffices). -/
def findIterGo (pat text : List Char) : Nat → Nat → List Mtch
  | 0, _ => []
  | fuel + 1, pos =>
    match (List.range (text.length + 1)).find?
        (fun i => decide (pos ≤ i) && occAt pat text i) with
    | none => []
    | some i =>
        ⟨i, i + pat.length, pat, pat.length⟩ ::
          findIterGo pat text fuel (i + max pat.length 1)

def findIter (pat text : List Char) : List Mtch :=
  findIterGo pat text (text.length + 1) 0

/-- The sort key `(start, -length)`: `a` goes no later than `b`. -/
def leM (a b : Mtch) : Prop :=
  a.start < b.start ∨ (a.start = b.start ∧ b.len ≤ a.len)

instance : DecidableRel leM := fun a b => by
  unfold leM; infer_instance

instance : IsTotal Mtch leM where
  total a b := by
    rcases Nat.lt_trichotomy a.start b.start with h | h | h
    · exact Or.inl (Or.inl h)
    · rcases Nat.le_total b.len a.len with h2 | h2
      · exact Or.inl (Or.inr ⟨h, h2⟩)
      · exact Or.inr (Or.inr ⟨h.symm, h2⟩)
    · exact Or.inr (Or.inl h)

instance : IsTrans Mtch leM where
  trans a b c hab hbc := by
    rcases hab with h1 | ⟨e1, l1⟩
    · rcases hbc with h2 | ⟨e2, _⟩
      · exact Or.inl (h1.trans h2)
      · exact Or.inl (e2 ▸ h1)
    · rcases hbc with h2 | ⟨e2, l2⟩
      · exact Or.inl (e1 ▸ h2)
      · exact Or.inr ⟨e1.trans e2, l2.trans l1⟩

/-- The final re-sort key (start offset only). -/
def leS (a b : Mtch) : Prop := a.start ≤ b.start

instance : DecidableRel leS := fun a b => by
  unfold leS; infer_instance

instance : IsTotal Mtch leS where
  total a b := Nat.le_total a.start b.start

instance : IsTrans Mtch leS where
  trans _ _ _ hab hbc := Nat.le_trans hab hbc

/-- The overlap test of the filtering loop:
`not (match.end <= accepted.start or match.start >= accepted.end)`. -/
def overlapB (m a : Mtch) : Bool :=
  !(decide (m.stop ≤ a.start) || decide (a.stop ≤ m.start))

/-- The inner `for accepted in filtered_matches` loop.  `none` means the
candidate is skipped (it overlapped a no-shorter accepted match); `some l`
is the accepted list after removals.  Removing the element the Python
iterator is at makes the iterator skip the next element, which is kept
unchecked — modelled by the `b :: _` case. -/
def scanAccepted (m : Mtch) : List Mtch → Option (List Mtch)
  | [] => some []
  | a :: rest =>
    if overlapB m a then
      if a.len < m.len then
        match rest with
        | [] => some []
        | b :: rest2 => (scanAccepted m rest2).map (fun r => b :: r)
      else none
    else (scanAccepted m rest).map (fun r => a :: r)

/-- One step of the outer filtering loop: scan the accepted list, then
append the candidate unless it was skipped. -/
def filterStep (acc : List Mtch) (m : Mtch) : List Mtch :=
  match scanAccepted m acc with
  | none => acc
  | some acc1 => acc1 ++ [m]

/-- Overlap removal over the whole sorted candidate list. -/
def filterMatches (l : List Mtch) : List Mtch := l.foldl filterStep []

def emOpen : List Char := ['<', 'e', 'm', '>']
def emClose : List Char := ['<', '/', 'e', 'm', '>']

/-- One replacement `text[:start] + <em>text[start:end]</em> + text[end:]`. -/
def applyOne (text : List Char) (m : Mtch) : List Char :=
  text.take m.start ++ emOpen ++ (text.drop m.start).take (m.stop - m.start)
    ++ emClose ++ text.drop m.stop

/-- `replace_text_with_links`: enumerate per-term matches, sort by
`(start, -length)` (Python's sort is stable; insertion sort on the
non-strict total key order is stable the same way), filter overlaps,
re-sort the kept matches by start, and substitute from the rightmost
match to the leftmost. -/
def replaceTextWithLinks (text : List Char) (terms : List (List Char)) : List Char :=
  let found := terms.foldl (fun acc term => acc ++ findIter term text) []
  let filtered := filterMatches (List.insertionSort leM found)
  ((List.insertionSort leS filtered).reverse).foldl applyOne text

/-! ## `parse_links.py`: the link resolver

`_Link` objects (`name`, `alter`, `alt_of`) are produced by
`_Link.validate`; `parse_links` mutates the list in place.  The
validate-established contract on the list (no duplicate names, no link
that is an alias of itself, no alias list containing its own entry's
name) is the `WfLinks` predicate used by the theorems.  The
`[x for x in res if x.name == to_replace][0]` lookup raises `IndexError`
when no such link exists; the model returns `none` for that crash. -/

structure PLink where
  name : String
  alter : Option (List String)
  alt_of : Option String
deriving DecidableEq

/-- Replace the first element satisfying `p` (the Python code mutates one
found object in place; names single out at most one under `WfLinks`). -/
def modifyFirst (p : PLink → Bool) (f : PLink → PLink) : List PLink → List PLink
  | [] => []
  | l :: rest => if p l then f l :: rest else l :: modifyFirst p f rest

/-- Split `s` at the first occurrence of `pat`: the part before it and
the part after it. -/
def splitOnSub (pat : List Char) : List Char → Option (List Char × List Char)
  | [] => if pat.isEmpty then some ([], []) else none
  | c :: rest =>
    if pat.isPrefixOf (c :: rest) then some ([], (c :: rest).drop pat.length)
    else
      match splitOnSub pat rest with
      | none => none
      | some (a, b) => some (c :: a, b)

/-- `re.sub(r"<em>(.*?)</em>", r"\1", text)` over the character list:
leftmost `<em>`, then the nearest `</em>`; `.` does not cross a newline,
so a crossing pair is no match there and scanning resumes after the
unmatched opening tag. -/
def stripEmGo : Nat → List Char → List Char
  | 0, s => s
  | fuel + 1, s =>
    match splitOnSub emOpen s with
    | none => s
    | some (pre, rest) =>
      match splitOnSub emClose rest with
      | none => s
      | some (inner, after) =>
        if '\n' ∈ inner then pre ++ emOpen ++ stripEmGo fuel rest
        else pre ++ inner ++ stripEmGo fuel after

def stripEm (s : String) : String := (stripEmGo s.length s.toList).asString

/-- Step 1 of the fix-up, applied to the link named after the title:
`title_link.alt_of = None; title_link.alter = [to_replace]`. -/
def fixTitleCanon (tr : String) (l : PLink) : PLink :=
  { l with alt_of := none, alter := some [tr] }

/-- Step 2, applied to the first link named `to_replace`:
`to_replace_link.alter = []; to_replace_link.alt_of = title_link.name`. -/
def fixDemote (title : String) (l : PLink) : PLink :=
  { l with alter := some [], alt_of := some title }

/-- The loop body re-pointing every remaining alias of `to_replace` at
the title. -/
def fixRepoint (tr title : String) (l : PLink) : PLink :=
  if l.alt_of == some tr && !(l.name == title) then
    { l with alt_of := some title }
  else l

/-- The loop's appends into `title_link.alter`. -/
def fixAppend (extras : List String) (l : PLink) : PLink :=
  { l with alter := some (l.alter.getD [] ++ extras) }

/-- The title-redirect fix-up of `parse_links` on the resolved link list:
locate the link named after the title; when it is an alias of `T`, make
the title canonical (`alt_of = None`, `alter = [T]`), demote the first
link named `T` (`alter = []`, `alt_of = title`), re-point every other
alias of `T` to the title, appending their names to the title's alias
list. -/
def fixupRedirect (title : String) (res : List PLink) : Option (List PLink) :=
  match res.find? (fun l => l.name == title) with
  | none => some res
  | some tl =>
    match tl.alt_of with
    | none => some res
    | some tr =>
      let res1 := modifyFirst (fun l => l.name == title) (fixTitleCanon tr) res
      match res1.find? (fun l => l.name == tr) with
      | none => none
      | some _ =>
        let res2 := modifyFirst (fun l => l.name == tr) (fixDemote title) res1
        let extras := (res2.filter
          (fun l => l.alt_of == some tr && !(l.name == title))).map (·.name)
        let res3 := res2.map (fixRepoint tr title)
        some (modifyFirst (fun l => l.name == title) (fixAppend extras) res3)

/-- `article.links[name] = value`: overwrite the existing entry in place
or append a new one. -/
def setLinkEntry (ls : List (String × Finset String)) (k : String)
    (v : Finset String) : List (String × Finset String) :=
  if ls.any (fun p => p.1 == k) then
    ls.map (fun p => if p.1 == k then (k, v) else p)
  else ls ++ [(k, v)]

def lookupLink (ls : List (String × Finset String)) (k : String) :
    Option (Finset String) :=
  (ls.find? (fun p => p.1 == k)).map (·.2)

/-- `parse_links` after `_link_parse` returned `res` (the model-call
itself is external): fix up the title redirect, extend the article's
`alt_title` by its own entry's alias list, add a `links` entry for every
other canonical link, and strip the emphasis markup from summary and
section bodies.  `none` models the `IndexError` crash. -/
def parseLinksModel (a : Doc) (res : List PLink) : Option Doc :=
  match a with
  | .proto _ _ => none
  | .article title alt sm secs links =>
    match fixupRedirect title res with
    | none => none
    | some res4 =>
      let altNew := match res4.find? (fun l => l.name == title) with
        | some tl => alt ∪ (tl.alter.getD []).toFinset
        | none => alt
      let linksNew := res4.foldl (fun ls l =>
        if !(l.name == title) && l.alt_of == none then
          setLinkEntry ls l.name (l.alter.getD []).toFinset
        else ls) links
      some (.article title altNew (stripEm sm)
        (secs.map (fun p => (p.1, stripEm p.2))) linksNew)

/-- The `_Link.validate` contract on a resolved link list: no duplicate
names, no link marked as an alias of itself, and no alias list containing
its own link's name. -/
def WfLinks (res : List PLink) : Prop :=
  (res.map (·.name)).Nodup ∧
  (∀ l ∈ res, l.alt_of ≠ some l.name) ∧
  (∀ l ∈ res, ∀ x ∈ l.alter.getD [], x ≠ l.name)

instance (res : List PLink) : Decidable (WfLinks res) := by
  unfold WfLinks; infer_instance

/-! ## Invariants, derived descriptions, concrete inputs -/

/-- The alias field of either document variant (`alt_title`). -/
def Doc.altTitles : Doc → Finset String
  | .proto _ a => a
  | .article _ a _ _ _ => a

/-- The store invariants of spec §3, all established by the store's own
operations on the states it produces: outgoing edges are keyed by one of
their own endpoints, every graph node has a document blob, edges join
graph nodes, blobs are stored under their document's own title, no two
parallel edges share a key, every edge's key names a stored full article,
and no placeholder node is edge-free (the orphan rule). -/
def WellFormed (s : Store) : Prop :=
  (∀ e ∈ s.graph.edges, e.u = e.key ∨ e.v = e.key) ∧
  (∀ n ∈ s.graph.nodes, lookupDoc s n ≠ none) ∧
  (∀ e ∈ s.graph.edges, e.u ∈ s.graph.nodes ∧ e.v ∈ s.graph.nodes) ∧
  (∀ p ∈ s.docs, (p.2).title = p.1) ∧
  s.graph.edges.Pairwise (fun e f => sameEdge e f = false) ∧
  (∀ e ∈ s.graph.edges, isArticleOpt (lookupDoc s e.key) = true) ∧
  (∀ n ∈ s.graph.nodes, isProtoOpt (lookupDoc s n) = true →
    s.graph.edges.any (·.touches n) = true)

instance (s : Store) : Decidable (WellFormed s) := by
  unfold WellFormed; infer_instance

/-- The edges `_write_doc` adds for an article's links. -/
def newEdges (t : String) (links : List (String × Finset String)) : List GEdge :=
  links.map (fun p => ⟨t, p.1, t⟩)

/-- What one link's `_upsert_doc(ProtoArticle(x, a))` leaves stored at `x`
given what was readable there before. -/
def mergeSpec (old : Option Doc) (x : String) (a : Finset String) : Option Doc :=
  match old with
  | some (.proto t0 b) => some (.proto t0 (b ∪ a))
  | some (.article t0 al sm se li) => some (.article t0 al sm se li)
  | none => some (.proto x a)

/-- The cleanup loop deletes old link target `l` of `t` exactly when `l`'s
stored blob is a proto-article and every edge incident to `l` is the
`(t, l, key=t)` edge itself (so that removing it leaves `l` with zero
incident edges). -/
def delPred (s : Store) (t l : String) : Prop :=
  isProtoOpt (lookupDoc s l) = true ∧
  ∀ e ∈ s.graph.edges, e.touches l = true → e.is t l t = true

instance (s : Store) (t l : String) : Decidable (delPred s t l) := by
  unfold delPred; infer_instance

/-- The per-term enumeration step of `replace_text_with_links`:
`for term in terms: for match in re.finditer(...): matches.append(...)`. -/
def allFound (text : List Char) (terms : List (List Char)) : List Mtch :=
  terms.foldl (fun acc term => acc ++ findIter term text) []

/-- The kept matches: sort by `(start, -length)`, then drop overlaps. -/
def keptMatches (text : List Char) (terms : List (List Char)) : List Mtch :=
  filterMatches (List.insertionSort leM (allFound text terms))

/-! Concrete inputs for witnesses and counterexamples. -/

/-- A store whose article `A` links only to placeholder `B`. -/
def exA : Store :=
  ⟨⟨{"A", "B"}, [⟨"A", "B", "A"⟩]⟩,
   [("A", .article "A" ∅ "" [] [("B", ∅)]), ("B", .proto "B" ∅)]⟩

/-- `exA` with a second article `C` also linking to `B`. -/
def exAC : Store :=
  ⟨⟨{"A", "B", "C"}, [⟨"A", "B", "A"⟩, ⟨"C", "B", "C"⟩]⟩,
   [("A", .article "A" ∅ "" [] [("B", ∅)]), ("B", .proto "B" ∅),
    ("C", .article "C" ∅ "" [] [("B", ∅)])]⟩

/-- A new version of `A` that drops the link to `B`. -/
def exNewA : Doc := .article "A" ∅ "" [] []

/-- A well-formed store for the idempotence witness: `A` links to
placeholder `B`, which `C` also links to. -/
def exW : Store :=
  ⟨⟨{"A", "B", "C"}, [⟨"A", "B", "A"⟩, ⟨"C", "B", "C"⟩]⟩,
   [("A", .article "A" ∅ "" [] [("B", {"b1"})]), ("B", .proto "B" {"b1"}),
    ("C", .article "C" ∅ "" [] [("B", ∅)])]⟩

/-- A replacement article for `A`: merges aliases into `B`, adds `N`. -/
def exD : Doc := .article "A" {"a"} "s" [] [("B", {"b2"}), ("N", ∅)]

/-- An ill-formed but spec-reachable snapshot (graph-only node `t` with a
stale authored edge and no blob): upsert is not idempotent on it. -/
def exBad : Store :=
  ⟨⟨{"t", "x"}, [⟨"t", "x", "t"⟩]⟩, [("x", .proto "x" ∅)]⟩

/-- The article upserted twice onto `exBad`. -/
def exBadD : Doc := .article "t" ∅ "" [] []

/-- Ranker store: seed article `S` linking to article `B`. -/
def exR : Store :=
  ⟨⟨{"S", "B"}, [⟨"S", "B", "S"⟩]⟩,
   [("S", .article "S" ∅ "" [] [("B", ∅)]), ("B", .article "B" ∅ "" [] [])]⟩

def exRS : Doc := .article "S" ∅ "" [] [("B", ∅)]
def exRB : Doc := .article "B" ∅ "" [] []

/-- The spec's title-redirect example: `Y` canonical with alias `X`,
resolved for an article titled `X`. -/
def exResXY : List PLink := [⟨"Y", some ["X"], none⟩, ⟨"X", none, some "Y"⟩]

def exArtX : Doc := .article "X" ∅ "" [] []

/-- The ranker session body in `_get_proto_with_related_articles` that
only copies the loaded graph (`nx.Graph(res.g)` built under the mutex). -/
def graphCopyBody (g : Graph) : Except String (Graph × Graph) := .ok (g, g)

/-! # Theorems -/

/-- **C5.** `_read_doc` returns absent (`None`, not an error) exactly when
the graph has no node of that name or the blob under that name is
missing; a graph-only node with no blob reads as not-found. -/
theorem c5_read_absent_iff (s : Store) (name : String) :
    readDocI s name = none ↔ name ∉ s.graph.nodes ∨ lookupDoc s name = none := by
  unfold readDocI
  by_cases h : name ∈ s.graph.nodes <;> simp [h]

theorem c5_read_absent_iff_witness :
    readDocI exA "Z" = none ↔ "Z" ∉ exA.graph.nodes ∨ lookupDoc exA "Z" = none :=
  c5_read_absent_iff exA "Z"

/-- **C2.** One `Space.mutex` session: if the body raises, the persisted
snapshot is exactly what it was and nothing is written; in every case the
snapshot is written at most once, and on success it is written exactly
once, at the end of the session, with the session's final graph. -/
theorem c2_snapshot_written_once {σ α ε : Type} (dflt : σ) (stored : Option σ)
    (body : σ → Except ε (α × σ)) :
    (∀ e, body (loadSnapshot dflt stored) = .error e →
      (runMutex dflt stored body).snapshot = stored ∧
      (runMutex dflt stored body).writes = []) ∧
    (runMutex dflt stored body).writes.length ≤ 1 ∧
    (∀ a g, body (loadSnapshot dflt stored) = .ok (a, g) →
      (runMutex dflt stored body).writes = [g] ∧
      (runMutex dflt stored body).snapshot = some g) := by
  unfold runMutex
  cases hb : body (loadSnapshot dflt stored) with
  | error e => simp [hb]
  | ok p => cases p with | mk a g => simp [hb]

theorem c2_snapshot_written_once_witness :
    (runMutex Graph.empty (some Graph.empty)
      (readDocBody [] "Z")).writes.length ≤ 1 :=
  (c2_snapshot_written_once Graph.empty (some Graph.empty)
    (readDocBody [] "Z")).2.1

/-- **C10.** Every session that completes without error rewrites the
snapshot blob, including the read-only ones: the `read_doc` session and
the ranker's graph-copy session both re-serialize the loaded graph back
to the snapshot slot. -/
theorem c10_read_only_session_rewrites_snapshot (stored : Option Graph)
    (fs : List (String × Doc)) (name : String) :
    (runMutex Graph.empty stored (readDocBody fs name)).writes
        = [loadSnapshot Graph.empty stored] ∧
    (runMutex Graph.empty stored (readDocBody fs name)).snapshot
        = some (loadSnapshot Graph.empty stored) ∧
    (runMutex Graph.empty stored graphCopyBody).writes
        = [loadSnapshot Graph.empty stored] ∧
    (runMutex Graph.empty stored graphCopyBody).snapshot
        = some (loadSnapshot Graph.empty stored) :=
  ⟨rfl, rfl, rfl, rfl⟩

theorem c10_read_only_session_rewrites_snapshot_witness :
    (runMutex Graph.empty (some exA.graph) (readDocBody exA.docs "A")).writes
      = [loadSnapshot Graph.empty (some exA.graph)] :=
  (c10_read_only_session_rewrites_snapshot (some exA.graph) exA.docs "A").1

/-- **C8.** Upserting a `ProtoArticle` for a title at which a full
`Article` is readable is a no-op: the whole store (graph and blobs) is
returned unchanged and the incoming placeholder is discarded. -/
theorem c8_placeholder_loses_to_article (s : Store) (x : String)
    (alt : Finset String) (t : String) (a : Finset String) (sm : String)
    (secs : List (String × String)) (links : List (String × Finset String))
    (h : readDocI s x = some (.article t a sm secs links)) :
    upsertDoc s (.proto x alt) = s := by
  simp only [upsertDoc, Doc.title, h]

theorem c8_placeholder_loses_to_article_witness :
    upsertDoc exR (.proto "S" {"q"}) = exR :=
  c8_placeholder_loses_to_article exR "S" {"q"} "S" ∅ "" [] [("B", ∅)]
    (by decide)

/-- Every document the ranker walk collects is one it appended: an
article whose title differs from the seed title. -/
theorem collectRelated_mem (s : Store) (title : String) (k : Nat) :
    ∀ (ns : List String) (acc : List Doc) (d : Doc),
      d ∈ collectRelated s title k ns acc →
      d ∈ acc ∨ (d.isArticle = true ∧ d.title ≠ title) := by
  intro ns
  induction ns with
  | nil =>
    intro acc d hd
    simp only [collectRelated] at hd
    exact Or.inl hd
  | cons n rest ih =>
    intro acc d hd
    simp only [collectRelated] at hd
    cases hr : readDocI s n with
    | none => rw [hr] at hd; exact ih acc d hd
    | some d0 =>
      rw [hr] at hd
      dsimp only at hd
      by_cases ht : d0.title == title
      · rw [if_pos ht] at hd; exact ih acc d hd
      · rw [if_neg ht] at hd
        have htne : d0.title ≠ title := by
          intro hEq; exact ht (by simp [hEq])
        by_cases ha : d0.isArticle
        · rw [if_pos ha] at hd
          by_cases hk : k ≤ (acc ++ [d0]).length
          · rw [if_pos hk] at hd
            rcases List.mem_append.mp hd with h1 | h1
            · exact Or.inl h1
            · have : d = d0 := by simpa using h1
              exact Or.inr ⟨this ▸ ha, this ▸ htne⟩
          · rw [if_neg hk] at hd
            rcases ih (acc ++ [d0]) d hd with h1 | h1
            · rcases List.mem_append.mp h1 with h2 | h2
              · exact Or.inl h2
              · have : d = d0 := by simpa using h2
                exact Or.inr ⟨this ▸ ha, this ▸ htne⟩
            · exact Or.inr h1
        · rw [if_neg ha] at hd
          by_cases hk : k ≤ acc.length
          · rw [if_pos hk] at hd; exact Or.inl hd
          · rw [if_neg hk] at hd; exact ih acc d hd

/-- The walk never grows the collection beyond `top_k` once the
collection is still below `top_k` (as it is at the start for
`top_k ≥ 1`). -/
theorem collectRelated_length (s : Store) (title : String) (k : Nat) :
    ∀ (ns : List String) (acc : List Doc), acc.length < k →
      (collectRelated s title k ns acc).length ≤ k := by
  intro ns
  induction ns with
  | nil =>
    intro acc hacc
    simp only [collectRelated]
    exact Nat.le_of_lt hacc
  | cons n rest ih =>
    intro acc hacc
    simp only [collectRelated]
    cases hr : readDocI s n with
    | none => exact ih acc hacc
    | some d0 =>
      dsimp only
      by_cases ht : d0.title == title
      · rw [if_pos ht]; exact ih acc hacc
      · rw [if_neg ht]
        by_cases ha : d0.isArticle
        · rw [if_pos ha]
          by_cases hk : k ≤ (acc ++ [d0]).length
          · rw [if_pos hk]
            simpa using hacc
          · rw [if_neg hk]
            exact ih (acc ++ [d0]) (Nat.lt_of_not_le hk)
        · rw [if_neg ha]
          by_cases hk : k ≤ acc.length
          · rw [if_pos hk]; exact Nat.le_of_lt hacc
          · rw [if_neg hk]; exact ih acc hacc

/-- **C7 (amended).** The relatedness walk never returns the seed and
never returns a document stored as a placeholder; with `top_k ≥ 1` it
returns at most `top_k` articles (with `top_k = 0` one article can still
be returned, because the stop check runs only after a possible append:
see the counterexample). -/
theorem c7_ranker_exclusion (s : Store) (title : String) (k : Nat)
    (sortedNodes : List String) (a : Doc) (rel : List Doc)
    (h : getProtoWithRelated s title k sortedNodes = some (a, rel)) :
    (∀ d ∈ rel, d.isArticle = true ∧ d.title ≠ title) ∧
    (1 ≤ k → rel.length ≤ k) := by
  unfold getProtoWithRelated at h
  cases hr : readDocI s title with
  | none => rw [hr] at h; exact absurd h (by simp)
  | some a0 =>
    rw [hr] at h
    have hrel : rel = collectRelated s title k sortedNodes [] := by
      have := (Option.some_inj.mp h)
      exact (congrArg Prod.snd this).symm
    constructor
    · intro d hd
      rw [hrel] at hd
      rcases collectRelated_mem s title k sortedNodes [] d hd with h1 | h1
      · exact absurd h1 (List.not_mem_nil d)
      · exact h1
    · intro hk
      rw [hrel]
      exact collectRelated_length s title k sortedNodes [] (by simpa using hk)

theorem c7_ranker_exclusion_witness :
    (∀ d ∈ [exRB], d.isArticle = true ∧ d.title ≠ "S") ∧
    (1 ≤ 1 → [exRB].length ≤ 1) :=
  c7_ranker_exclusion exR "S" 1 ["S", "B"] exRS [exRB] (by decide)

/-- **C7, counterexample to the claim as stated.** With `top_k = 0` the
walk still returns one article, exceeding the requested K, because
`len(connected_articles) >= top_k` is only checked after the append. -/
theorem c7_topk_zero_cex :
    getProtoWithRelated exR "S" 0 ["S", "B"] = some (exRS, [exRB]) ∧
    ¬ ([exRB].length ≤ 0) := by
  constructor
  · decide
  · decide

/-- The overlap test in arithmetic form (true case). -/
theorem overlapB_eq_true_iff (m a : Mtch) :
    overlapB m a = true ↔ a.start < m.stop ∧ m.start < a.stop := by
  simp [overlapB, Nat.not_le]

/-- The overlap test in arithmetic form (false case). -/
theorem overlapB_eq_false_iff (m a : Mtch) :
    overlapB m a = false ↔ m.stop ≤ a.start ∨ a.stop ≤ m.start := by
  rw [← Bool.not_eq_true, overlapB_eq_true_iff]
  omega

/-- Overlap is symmetric. -/
theorem overlapB_symm (m a : Mtch) : overlapB m a = overlapB a m := by
  unfold overlapB
  rw [Bool.or_comm]

/-- Among pairwise non-overlapping matches that all start no later than
`m`, at most one can overlap `m`. -/
theorem overlap_unique {m a c : Mtch} (hac : overlapB a c = false)
    (ha : a.start ≤ m.start) (hc : c.start ≤ m.start)
    (hma : overlapB m a = true) : overlapB m c = false := by
  rw [overlapB_eq_false_iff] at hac ⊢
  rw [overlapB_eq_true_iff] at hma
  omega

/-- The inner accepted-list scan: when the candidate is not skipped, the
surviving accepted list is a sublist of the old one and nothing in it
overlaps the candidate (the element the mutated-iteration skip leaves
unchecked cannot overlap it either, by `overlap_unique`). -/
theorem scanAccepted_spec (m : Mtch) :
    ∀ (n : Nat) (acc : List Mtch), acc.length ≤ n →
      acc.Pairwise (fun a b => overlapB a b = false) →
      (∀ a ∈ acc, a.start ≤ m.start) →
      ∀ l, scanAccepted m acc = some l →
        l.Sublist acc ∧ ∀ a ∈ l, overlapB m a = false := by
  intro n
  induction n with
  | zero =>
    intro acc hlen _ _ l hl
    have : acc = [] := List.length_eq_zero.mp (Nat.le_zero.mp hlen)
    subst this
    simp only [scanAccepted, Option.some_inj] at hl
    subst hl
    exact ⟨List.Sublist.refl _, by simp⟩
  | succ n ih =>
    intro acc hlen hpw hst l hl
    cases acc with
    | nil =>
      simp only [scanAccepted, Option.some_inj] at hl
      subst hl
      exact ⟨List.Sublist.refl _, by simp⟩
    | cons a rest =>
      rw [scanAccepted.eq_def] at hl
      dsimp only at hl
      have hpw' := List.pairwise_cons.mp hpw
      by_cases hov : overlapB m a
      · rw [if_pos hov] at hl
        have hkey : ∀ c ∈ rest, overlapB m c = false := fun c hc =>
          overlap_unique (hpw'.1 c hc) (hst a (by simp)) (hst c (by simp [hc])) hov
        by_cases hlt : a.len < m.len
        · rw [if_pos hlt] at hl
          cases rest with
          | nil =>
            dsimp only at hl
            simp only [Option.some_inj] at hl
            subst hl
            exact ⟨List.nil_sublist _, by simp⟩
          | cons b rest2 =>
            dsimp only at hl
            cases hsc : scanAccepted m rest2 with
            | none => rw [hsc] at hl; simp at hl
            | some l2 =>
              rw [hsc] at hl
              simp only [Option.map_some', Option.some_inj] at hl
              subst hl
              have hpw2 : rest2.Pairwise (fun a b => overlapB a b = false) :=
                (List.pairwise_cons.mp hpw'.2).2
              have hst2 : ∀ x ∈ rest2, x.start ≤ m.start := fun x hx =>
                hst x (by simp [hx])
              have hlen2 : rest2.length ≤ n := by
                simp at hlen; omega
              obtain ⟨hsub, hno⟩ := ih rest2 hlen2 hpw2 hst2 l2 hsc
              refine ⟨?_, ?_⟩
              · exact List.Sublist.cons a (List.Sublist.cons₂ b hsub)
              · intro x hx
                rcases List.mem_cons.mp hx with hx | hx
                · exact hx ▸ hkey b (by simp)
                · exact hno x hx
        · rw [if_neg hlt] at hl
          simp at hl
      · rw [if_neg hov] at hl
        cases hsc : scanAccepted m rest with
        | none => rw [hsc] at hl; simp at hl
        | some l2 =>
          rw [hsc] at hl
          simp only [Option.map_some', Option.some_inj] at hl
          subst hl
          have hlen2 : rest.length ≤ n := by simp at hlen; omega
          obtain ⟨hsub, hno⟩ := ih rest hlen2 hpw'.2
            (fun x hx => hst x (by simp [hx])) l2 hsc
          refine ⟨List.Sublist.cons₂ a hsub, ?_⟩
          intro x hx
          rcases List.mem_cons.mp hx with hx | hx
          · exact hx ▸ Bool.not_eq_true _ ▸ (Bool.eq_false_iff.mpr (by simpa using hov))
          · exact hno x hx

/-- One step of the filtering loop keeps the accepted list pairwise
non-overlapping and only ever holds old elements or the candidate. -/
theorem filterStep_spec (acc : List Mtch) (m : Mtch)
    (hpw : acc.Pairwise fun a b => overlapB a b = false)
    (hst : ∀ a ∈ acc, a.start ≤ m.start) :
    (filterStep acc m).Pairwise (fun a b => overlapB a b = false) ∧
    ∀ x ∈ filterStep acc m, x ∈ acc ∨ x = m := by
  unfold filterStep
  cases hsc : scanAccepted m acc with
  | none => exact ⟨hpw, fun x hx => Or.inl hx⟩
  | some l =>
    obtain ⟨hsub, hno⟩ :=
      scanAccepted_spec m acc.length acc le_rfl hpw hst l hsc
    constructor
    · refine List.pairwise_append.mpr ⟨hpw.sublist hsub, by simp, ?_⟩
      intro a ha b hb
      rw [List.mem_singleton.mp hb, overlapB_symm]
      exact hno a ha
    · intro x hx
      rcases List.mem_append.mp hx with h | h
      · exact Or.inl (hsub.subset h)
      · exact Or.inr (List.mem_singleton.mp h)

/-- The whole filtering fold: starting from a pairwise non-overlapping
accepted list whose members start no later than any remaining candidate,
a start-sorted candidate list yields a pairwise non-overlapping result
drawn from the accepted list and the candidates. -/
theorem filterMatches_fold_spec :
    ∀ (l acc : List Mtch),
      acc.Pairwise (fun a b => overlapB a b = false) →
      (∀ a ∈ acc, ∀ m ∈ l, a.start ≤ m.start) →
      l.Pairwise (fun a b => a.start ≤ b.start) →
      (l.foldl filterStep acc).Pairwise (fun a b => overlapB a b = false) ∧
      ∀ x ∈ l.foldl filterStep acc, x ∈ acc ∨ x ∈ l := by
  intro l
  induction l with
  | nil => intro acc hpw _ _; exact ⟨hpw, fun x hx => Or.inl hx⟩
  | cons m rest ih =>
    intro acc hpw hst hsort
    have hstm : ∀ a ∈ acc, a.start ≤ m.start := fun a ha =>
      hst a ha m (by simp)
    obtain ⟨hpw1, hmem1⟩ := filterStep_spec acc m hpw hstm
    have hsort' := List.pairwise_cons.mp hsort
    have hst1 : ∀ a ∈ filterStep acc m, ∀ x ∈ rest, a.start ≤ x.start := by
      intro a ha x hx
      rcases hmem1 a ha with h | h
      · exact hst a h x (by simp [hx])
      · exact h ▸ hsort'.1 x hx
    obtain ⟨hpw2, hmem2⟩ := ih (filterStep acc m) hpw1 hst1 hsort'.2
    refine ⟨hpw2, ?_⟩
    intro x hx
    rcases hmem2 x hx with h | h
    · rcases hmem1 x h with h1 | h1
      · exact Or.inl h1
      · exact Or.inr (by simp [h1])
    · exact Or.inr (by simp [h])

/-- **C3 (amended).** The highlighter's kept matches are pairwise
non-overlapping, every kept match is one of the enumerated per-term
matches, and the spec's overlap example wraps `"abcdef"` as a whole
exactly once (in either term order), the longer candidate winning over
its shorter prefix. -/
theorem c3_highlighter_overlap :
    (∀ (text : List Char) (terms : List (List Char)),
      (keptMatches text terms).Pairwise (fun a b => overlapB a b = false) ∧
      ∀ x ∈ keptMatches text terms, x ∈ allFound text terms) ∧
    replaceTextWithLinks "abcdef".toList ["abc".toList, "abcdef".toList]
      = "<em>abcdef</em>".toList ∧
    replaceTextWithLinks "abcdef".toList ["abcdef".toList, "abc".toList]
      = "<em>abcdef</em>".toList := by
  refine ⟨?_, by decide, by decide⟩
  intro text terms
  have hsorted : (List.insertionSort leM (allFound text terms)).Pairwise
      (fun a b => a.start ≤ b.start) := by
    refine (List.sorted_insertionSort leM (allFound text terms)).imp ?_
    intro a b hab
    rcases hab with h | ⟨h, _⟩
    · exact Nat.le_of_lt h
    · exact Nat.le_of_eq h
  obtain ⟨hpw, hmem⟩ := filterMatches_fold_spec
    (List.insertionSort leM (allFound text terms)) []
    (by simp) (by simp) hsorted
  refine ⟨hpw, ?_⟩
  intro x hx
  rcases hmem x hx with h | h
  · exact absurd h (List.not_mem_nil x)
  · exact (List.perm_insertionSort leM (allFound text terms)).subset h

/-- **C3, counterexample to the claim as stated.** Not every
case-insensitive occurrence is enumerated: `re.finditer` scans each term
left to right without overlap, so in `"aaa"` the term `"aa"` also occurs
at offset 1, yet the match list holds only the occurrence at offset 0. -/
theorem c3_enumeration_cex :
    occAt "aa".toList "aaa".toList 1 = true ∧
    (allFound "aaa".toList ["aa".toList]).map (fun m => (m.start, m.stop))
      = [(0, 2)] := by
  exact ⟨by decide, by decide⟩

theorem c3_highlighter_overlap_witness :
    (keptMatches "abcdef".toList ["abc".toList, "abcdef".toList]).Pairwise
      (fun a b => overlapB a b = false) :=
  (c3_highlighter_overlap.1 "abcdef".toList ["abc".toList, "abcdef".toList]).1

/-- With unique names, `find?` by name returns the member with that
name. -/
theorem find?_name_of_nodup (nm : String) :
    ∀ (res : List PLink), (res.map (·.name)).Nodup →
      ∀ tl ∈ res, tl.name = nm →
        res.find? (fun l => l.name == nm) = some tl := by
  intro res
  induction res with
  | nil => intro _ tl htl; exact absurd htl (List.not_mem_nil tl)
  | cons h rest ih =>
    intro hnd tl htl hname
    rw [List.map_cons] at hnd
    have hnd' := List.nodup_cons.mp hnd
    cases hc : h.name == nm with
    | true =>
      have hh : h.name = nm := by simpa using hc
      simp only [List.find?_cons, hc]
      rcases List.mem_cons.mp htl with h1 | h1
      · rw [h1]
      · exfalso
        apply hnd'.1
        have hmem : tl.name ∈ rest.map (fun x => x.name) :=
          List.mem_map_of_mem _ h1
        rwa [hname, ← hh] at hmem
    | false =>
      simp only [List.find?_cons, hc]
      rcases List.mem_cons.mp htl with h1 | h1
      · exfalso
        have hbad : h.name = nm := by rw [← h1]; exact hname
        simp [hbad] at hc
      · exact ih hnd'.2 tl h1 hname

/-- With unique names, two members sharing a name are the same member. -/
theorem eq_of_name_of_nodup :
    ∀ (res : List PLink), (res.map (·.name)).Nodup →
      ∀ x ∈ res, ∀ y ∈ res, x.name = y.name → x = y := by
  intro res
  induction res with
  | nil => intro _ x hx; exact absurd hx (List.not_mem_nil x)
  | cons h rest ih =>
    intro hnd x hx y hy hxy
    rw [List.map_cons] at hnd
    have hnd' := List.nodup_cons.mp hnd
    rcases List.mem_cons.mp hx with h1 | h1 <;>
      rcases List.mem_cons.mp hy with h2 | h2
    · rw [h1, h2]
    · exfalso
      apply hnd'.1
      have hmem : y.name ∈ rest.map (fun x => x.name) :=
        List.mem_map_of_mem _ h2
      rwa [← hxy, h1] at hmem
    · exfalso
      apply hnd'.1
      have hmem : x.name ∈ rest.map (fun x => x.name) :=
        List.mem_map_of_mem _ h1
      rwa [hxy, h2] at hmem
    · exact ih hnd'.2 x h1 y h2 hxy

/-- `modifyFirst` by a name-preserving function keeps the name list. -/
theorem modifyFirst_map_name (p : PLink → Bool) (f : PLink → PLink)
    (hf : ∀ l, (f l).name = l.name) :
    ∀ res : List PLink,
      (modifyFirst p f res).map (·.name) = res.map (·.name) := by
  intro res
  induction res with
  | nil => rfl
  | cons h rest ih =>
    by_cases hh : p h
    · simp [modifyFirst, hh, hf]
    · simp [modifyFirst, hh, ih]

/-- An element the predicate rejects survives `modifyFirst` unchanged. -/
theorem mem_modifyFirst_of_neg (p : PLink → Bool) (f : PLink → PLink) :
    ∀ (res : List PLink) (l : PLink), l ∈ res → p l = false →
      l ∈ modifyFirst p f res := by
  intro res
  induction res with
  | nil => intro l hl; exact absurd hl (List.not_mem_nil l)
  | cons h rest ih =>
    intro l hl hp
    cases hc : p h with
    | true =>
      simp only [modifyFirst, hc, if_true]
      rcases List.mem_cons.mp hl with h1 | h1
      · rw [h1] at hp; rw [hp] at hc; exact absurd hc (by simp)
      · exact List.mem_cons_of_mem _ h1
    | false =>
      simp only [modifyFirst, hc, if_false]
      rcases List.mem_cons.mp hl with h1 | h1
      · exact h1 ▸ List.mem_cons_self _ _
      · exact List.mem_cons_of_mem _ (ih l h1 hp)

/-- Every member of `modifyFirst` by name is either an unmodified member
not of that name, or the image of a member of that name. -/
theorem mem_modifyFirst_name (nm : String) (f : PLink → PLink)
    (hf : ∀ l, (f l).name = l.name) :
    ∀ (res : List PLink), (res.map (·.name)).Nodup →
      ∀ x ∈ modifyFirst (fun l => l.name == nm) f res,
        (x.name ≠ nm ∧ x ∈ res) ∨
        (∃ y ∈ res, y.name = nm ∧ x = f y) := by
  intro res
  induction res with
  | nil => intro _ x hx; exact absurd hx (List.not_mem_nil x)
  | cons h rest ih =>
    intro hnd x hx
    rw [List.map_cons] at hnd
    have hnd' := List.nodup_cons.mp hnd
    cases hc : h.name == nm with
    | true =>
      have hh : h.name = nm := by simpa using hc
      simp only [modifyFirst, hc, if_true] at hx
      rcases List.mem_cons.mp hx with h1 | h1
      · exact Or.inr ⟨h, List.mem_cons_self _ _, hh, h1⟩
      · left
        refine ⟨?_, List.mem_cons_of_mem _ h1⟩
        intro hxn
        apply hnd'.1
        have hmem : x.name ∈ rest.map (fun x => x.name) :=
          List.mem_map_of_mem _ h1
        rwa [hxn, ← hh] at hmem
    | false =>
      have hh : h.name ≠ nm := by simpa using hc
      simp only [modifyFirst, hc, if_false] at hx
      rcases List.mem_cons.mp hx with h1 | h1
      · exact Or.inl ⟨h1 ▸ hh, h1 ▸ List.mem_cons_self _ _⟩
      · rcases ih hnd'.2 x h1 with ⟨hxn, hxm⟩ | ⟨y, hy, hyn, hxy⟩
        · exact Or.inl ⟨hxn, List.mem_cons_of_mem _ hxm⟩
        · exact Or.inr ⟨y, List.mem_cons_of_mem _ hy, hyn, hxy⟩

/-- `find?` by name through `modifyFirst` on the same name applies the
modification to the found element. -/
theorem find?_modifyFirst_same (nm : String) (f : PLink → PLink)
    (hf : ∀ l, (f l).name = l.name) :
    ∀ (res : List PLink) (y : PLink),
      res.find? (fun l => l.name == nm) = some y →
      (modifyFirst (fun l => l.name == nm) f res).find?
        (fun l => l.name == nm) = some (f y) := by
  intro res
  induction res with
  | nil => intro y hy; simp at hy
  | cons h rest ih =>
    intro y hy
    cases hc : h.name == nm with
    | true =>
      simp only [List.find?_cons, hc, Option.some_inj] at hy
      subst hy
      have hmf : modifyFirst (fun l => l.name == nm) f (h :: rest)
          = f h :: rest := by simp [modifyFirst, hc]
      rw [hmf]
      have hc2 : ((f h).name == nm) = true := by rw [hf]; exact hc
      simp only [List.find?_cons, hc2]
    | false =>
      simp only [List.find?_cons, hc] at hy
      have hmf : modifyFirst (fun l => l.name == nm) f (h :: rest)
          = h :: modifyFirst (fun l => l.name == nm) f rest := by
        simp [modifyFirst, hc]
      rw [hmf]
      simp only [List.find?_cons, hc]
      exact ih y hy

/-- `find?` by one name is unchanged by `modifyFirst` on a different
name. -/
theorem find?_modifyFirst_other (nm nm2 : String) (f : PLink → PLink)
    (hf : ∀ l, (f l).name = l.name) (hne : nm ≠ nm2) :
    ∀ res : List PLink,
      (modifyFirst (fun l => l.name == nm) f res).find?
          (fun l => l.name == nm2)
        = res.find? (fun l => l.name == nm2) := by
  intro res
  induction res with
  | nil => rfl
  | cons h rest ih =>
    cases hc : h.name == nm with
    | true =>
      have hh : h.name = nm := by simpa using hc
      have hmf : modifyFirst (fun l => l.name == nm) f (h :: rest)
          = f h :: rest := by simp [modifyFirst, hc]
      rw [hmf]
      have hc2 : ((f h).name == nm2) = false := by
        simp [hf, hh]; exact hne
      have hc3 : (h.name == nm2) = false := by
        simp [hh]; exact hne
      simp only [List.find?_cons, hc2, hc3]
    | false =>
      have hmf : modifyFirst (fun l => l.name == nm) f (h :: rest)
          = h :: modifyFirst (fun l => l.name == nm) f rest := by
        simp [modifyFirst, hc]
      rw [hmf]
      cases hc2 : h.name == nm2 with
      | true => simp only [List.find?_cons, hc2]
      | false => simp only [List.find?_cons, hc2]; exact ih

/-- `find?` by name through a name-preserving `map` applies the map to
the found element. -/
theorem find?_map_name (nm : String) (g : PLink → PLink)
    (hg : ∀ l, (g l).name = l.name) :
    ∀ (res : List PLink),
      (res.map g).find? (fun l => l.name == nm)
        = (res.find? (fun l => l.name == nm)).map g := by
  intro res
  induction res with
  | nil => rfl
  | cons h rest ih =>
    cases hc : h.name == nm with
    | true =>
      have hc2 : ((g h).name == nm) = true := by rw [hg]; exact hc
      simp only [List.map_cons, List.find?_cons, hc, hc2]
      rfl
    | false =>
      have hc2 : ((g h).name == nm) = false := by
        rw [hg]; exact hc
      simp only [List.map_cons, List.find?_cons, hc, hc2]
      exact ih

/-- The full behavior of the title-redirect fix-up in the redirect case:
the fix-up succeeds, the title's entry becomes canonical with `T` heading
its alias list, nothing named the title is appended, what remains named
`T` is an alias of the title, and every other alias of `T` is re-pointed
to the title; names are preserved. -/
theorem fixupRedirect_spec (title T : String) (res : List PLink) (tl : PLink)
    (hnd : (res.map (·.name)).Nodup)
    (hsd : ∀ l ∈ res, l.alt_of ≠ some l.name)
    (htl : tl ∈ res) (hname : tl.name = title) (hredir : tl.alt_of = some T)
    (hex : ∃ l ∈ res, l.name = T) :
    ∃ out extras,
      fixupRedirect title res = some out ∧
      out.find? (fun l => l.name == title)
        = some { tl with alt_of := none, alter := some (T :: extras) } ∧
      (∀ x ∈ extras, x ≠ title) ∧
      (∀ l ∈ out, l.name = T → l.alt_of = some title) ∧
      (∀ l ∈ res, l.alt_of = some T → l.name ≠ title →
        ∃ l2 ∈ out, l2.name = l.name ∧ l2.alt_of = some title) ∧
      out.map (·.name) = res.map (·.name) := by
  have hTt : T ≠ title := by
    intro h
    exact hsd tl htl (by rw [hredir, h, ← hname])
  have hfind : res.find? (fun l => l.name == title) = some tl :=
    find?_name_of_nodup title res hnd tl htl hname
  have hf1n : ∀ l, (fixTitleCanon T l).name = l.name := fun _ => rfl
  have hf2n : ∀ l, (fixDemote title l).name = l.name := fun _ => rfl
  have hg3n : ∀ l, (fixRepoint T title l).name = l.name := by
    intro l
    unfold fixRepoint
    split <;> rfl
  have hnames1 : (modifyFirst (fun l => l.name == title) (fixTitleCanon T)
      res).map (·.name) = res.map (·.name) :=
    modifyFirst_map_name _ _ hf1n res
  have hnd1 : ((modifyFirst (fun l => l.name == title) (fixTitleCanon T)
      res).map (·.name)).Nodup := by rw [hnames1]; exact hnd
  obtain ⟨lT, hlT, hlTname⟩ := hex
  have hlTnt : (lT.name == title) = false := by simp [hlTname]; exact hTt
  have hlT1 : lT ∈ modifyFirst (fun l => l.name == title)
      (fixTitleCanon T) res :=
    mem_modifyFirst_of_neg _ _ res lT hlT hlTnt
  have hfindT : (modifyFirst (fun l => l.name == title) (fixTitleCanon T)
      res).find? (fun l => l.name == T) = some lT :=
    find?_name_of_nodup T _ hnd1 lT hlT1 hlTname
  have hnames2 : (modifyFirst (fun l => l.name == T) (fixDemote title)
        (modifyFirst (fun l => l.name == title) (fixTitleCanon T)
          res)).map (·.name)
      = res.map (·.name) := by
    rw [modifyFirst_map_name _ _ hf2n, hnames1]
  have hnd2 : ((modifyFirst (fun l => l.name == T) (fixDemote title)
      (modifyFirst (fun l => l.name == title) (fixTitleCanon T)
        res)).map (·.name)).Nodup := by rw [hnames2]; exact hnd
  -- the concrete intermediate lists and the loop's appended names
  refine ⟨modifyFirst (fun l => l.name == title)
      (fixAppend (((modifyFirst (fun l => l.name == T) (fixDemote title)
        (modifyFirst (fun l => l.name == title) (fixTitleCanon T) res)).filter
        (fun l => l.alt_of == some T && !(l.name == title))).map (·.name)))
      ((modifyFirst (fun l => l.name == T) (fixDemote title)
        (modifyFirst (fun l => l.name == title) (fixTitleCanon T) res)).map
        (fixRepoint T title)),
    ((modifyFirst (fun l => l.name == T) (fixDemote title)
      (modifyFirst (fun l => l.name == title) (fixTitleCanon T) res)).filter
      (fun l => l.alt_of == some T && !(l.name == title))).map (·.name),
    ?_, ?_, ?_, ?_, ?_, ?_⟩
  · simp only [fixupRedirect, hfind, hredir, hfindT]
  · -- the final title entry
    have h1 : (modifyFirst (fun l => l.name == title) (fixTitleCanon T)
        res).find? (fun l => l.name == title) = some (fixTitleCanon T tl) :=
      find?_modifyFirst_same title _ hf1n res tl hfind
    have h2 : (modifyFirst (fun l => l.name == T) (fixDemote title)
          (modifyFirst (fun l => l.name == title) (fixTitleCanon T)
            res)).find? (fun l => l.name == title)
        = some (fixTitleCanon T tl) := by
      rw [find?_modifyFirst_other T title _ hf2n hTt]
      exact h1
    have h3 : ((modifyFirst (fun l => l.name == T) (fixDemote title)
          (modifyFirst (fun l => l.name == title) (fixTitleCanon T)
            res)).map (fixRepoint T title)).find? (fun l => l.name == title)
        = some (fixRepoint T title (fixTitleCanon T tl)) := by
      rw [find?_map_name title _ hg3n, h2]
      rfl
    have hfix : fixRepoint T title (fixTitleCanon T tl)
        = fixTitleCanon T tl := by
      unfold fixRepoint fixTitleCanon
      simp
    rw [hfix] at h3
    have h4 := find?_modifyFirst_same title
      (fixAppend (((modifyFirst (fun l => l.name == T) (fixDemote title)
        (modifyFirst (fun l => l.name == title) (fixTitleCanon T) res)).filter
        (fun l => l.alt_of == some T && !(l.name == title))).map (·.name)))
      (fun _ => rfl) _ (fixTitleCanon T tl) h3
    rw [h4]
    rfl
  · -- appended names avoid the title
    intro x hx
    rcases List.mem_map.mp hx with ⟨l, hl, hlx⟩
    rcases List.mem_filter.mp hl with ⟨_, hcond⟩
    rcases Bool.and_eq_true_iff.mp hcond with ⟨_, hnott⟩
    intro hxt
    rw [hxt] at hlx
    simp [hlx] at hnott
  · -- anything still named T is an alias of the title
    intro l hl hlname
    have hnd3 : (((modifyFirst (fun l => l.name == T) (fixDemote title)
        (modifyFirst (fun l => l.name == title) (fixTitleCanon T)
          res)).map (fixRepoint T title)).map (·.name)).Nodup := by
      rw [List.map_map]
      have hcomp : ((fun l : PLink => l.name) ∘ fixRepoint T title)
          = fun l : PLink => l.name := by
        funext x
        exact hg3n x
      rw [hcomp]
      exact hnd2
    rcases mem_modifyFirst_name title
        (fixAppend (((modifyFirst (fun l => l.name == T) (fixDemote title)
          (modifyFirst (fun l => l.name == title) (fixTitleCanon T)
            res)).filter
          (fun l => l.alt_of == some T && !(l.name == title))).map (·.name)))
        (fun _ => rfl) _ hnd3 l hl
      with ⟨_, hl3⟩ | ⟨y, _, hyt, hly⟩
    · rcases List.mem_map.mp hl3 with ⟨y, hy, hyl⟩
      have hyname : y.name = T := by
        rw [← hlname, ← hyl]; exact (hg3n y).symm
      rcases mem_modifyFirst_name T (fixDemote title) hf2n _ hnd1 y hy
        with ⟨hynT, _⟩ | ⟨z, _, _, hyz⟩
      · exact absurd hyname hynT
      · have hyao : y.alt_of = some title := by rw [hyz]; rfl
        rw [← hyl]
        unfold fixRepoint
        rw [hyao]
        have hsne : (some title == some T) = false := by
          simp
          exact Ne.symm hTt
        rw [hsne]
        simp [hyao]
    · exfalso
      apply hTt
      rw [← hlname, hly]
      exact hyt
  · -- every other alias of T is re-pointed at the title
    intro l hl hlaltof hlnt
    have hlnT : l.name ≠ T := by
      intro h
      exact hsd l hl (by rw [hlaltof, h])
    have hl1 : l ∈ modifyFirst (fun l => l.name == title)
        (fixTitleCanon T) res :=
      mem_modifyFirst_of_neg _ _ res l hl (by simp [hlnt])
    have hl2 : l ∈ modifyFirst (fun l => l.name == T) (fixDemote title)
        (modifyFirst (fun l => l.name == title) (fixTitleCanon T) res) :=
      mem_modifyFirst_of_neg _ _ _ l hl1 (by simp [hlnT])
    have hl3 : fixRepoint T title l ∈ (modifyFirst (fun l => l.name == T)
        (fixDemote title) (modifyFirst (fun l => l.name == title)
          (fixTitleCanon T) res)).map (fixRepoint T title) :=
      List.mem_map_of_mem _ hl2
    have hrep : fixRepoint T title l = { l with alt_of := some title } := by
      unfold fixRepoint
      have : ((l.alt_of == some T) && !(l.name == title)) = true := by
        simp [hlaltof, hlnt]
      rw [this]
      simp
    have hout : fixRepoint T title l ∈ modifyFirst
        (fun l => l.name == title)
        (fixAppend (((modifyFirst (fun l => l.name == T) (fixDemote title)
          (modifyFirst (fun l => l.name == title) (fixTitleCanon T)
            res)).filter
          (fun l => l.alt_of == some T && !(l.name == title))).map (·.name)))
        ((modifyFirst (fun l => l.name == T) (fixDemote title)
          (modifyFirst (fun l => l.name == title) (fixTitleCanon T)
            res)).map (fixRepoint T title)) := by
      apply mem_modifyFirst_of_neg _ _ _ _ hl3
      rw [hrep]
      simpa using hlnt
    exact ⟨fixRepoint T title l, hout, by rw [hrep], by rw [hrep]⟩
  · -- names preserved end to end
    rw [modifyFirst_map_name (fun l => l.name == title)
      (fixAppend (((modifyFirst (fun l => l.name == T) (fixDemote title)
        (modifyFirst (fun l => l.name == title) (fixTitleCanon T)
          res)).filter
        (fun l => l.alt_of == some T && !(l.name == title))).map (·.name)))
      (fun _ => rfl), List.map_map]
    have hcomp2 : ((fun l : PLink => l.name) ∘ fixRepoint T title)
        = fun l : PLink => l.name := by
      funext l
      exact hg3n l
    rw [hcomp2, hnames2]

/-- A `links[k] = v` assignment leaves every other key's entry alone. -/
theorem lookupLink_setLinkEntry_other (k : String) (v : Finset String)
    (x : String) (hxk : x ≠ k) :
    ∀ ls : List (String × Finset String),
      lookupLink (setLinkEntry ls k v) x = lookupLink ls x := by
  have hkx : ((k, v).1 == x) = false := by simp; exact Ne.symm hxk
  have hmap : ∀ ls : List (String × Finset String),
      (ls.map (fun p => if p.1 == k then (k, v) else p)).find?
        (fun p => p.1 == x) = ls.find? (fun p => p.1 == x) := by
    intro ls
    induction ls with
    | nil => rfl
    | cons p rest ih =>
      simp only [List.map_cons]
      by_cases hc : p.1 = k
      · rw [show (if p.1 == k then (k, v) else p) = (k, v) from by simp [hc]]
        have h2 : (p.1 == x) = false := by simp [hc]; exact Ne.symm hxk
        simp only [List.find?_cons, hkx, h2]
        exact ih
      · rw [show (if p.1 == k then (k, v) else p) = p from by simp [hc]]
        cases hc2 : p.1 == x with
        | true => simp only [List.find?_cons, hc2]
        | false => simp only [List.find?_cons, hc2]; exact ih
  have happ : ∀ ls : List (String × Finset String),
      (ls ++ [(k, v)]).find? (fun p => p.1 == x)
        = ls.find? (fun p => p.1 == x) := by
    intro ls
    induction ls with
    | nil =>
      simp only [List.nil_append, List.find?_cons, hkx]
    | cons p rest ih =>
      cases hc2 : p.1 == x with
      | true => simp only [List.cons_append, List.find?_cons, hc2]
      | false => simp only [List.cons_append, List.find?_cons, hc2]; exact ih
  intro ls
  unfold setLinkEntry lookupLink
  by_cases hany : ls.any (fun p => p.1 == k)
  · rw [if_pos hany, hmap]
  · rw [if_neg hany, happ]

/-- The `links` fold of `parse_links` never creates an entry for a name
whose links are all aliases: a key absent before stays absent when every
same-named resolved link has a non-`None` `alt_of`. -/
theorem foldl_setLinks_none (title T : String) :
    ∀ (rs : List PLink) (ls : List (String × Finset String)),
      lookupLink ls T = none →
      (∀ l ∈ rs, l.name = T → l.alt_of ≠ none) →
      lookupLink (rs.foldl (fun ls l =>
        if !(l.name == title) && l.alt_of == none then
          setLinkEntry ls l.name (l.alter.getD []).toFinset
        else ls) ls) T = none := by
  intro rs
  induction rs with
  | nil => intro ls h0 _; exact h0
  | cons l rest ih =>
    intro ls h0 hno
    simp only [List.foldl_cons]
    by_cases hc : (!(l.name == title) && l.alt_of == none) = true
    · rw [if_pos hc]
      have haof : l.alt_of = none := by
        rcases Bool.and_eq_true_iff.mp hc with ⟨_, h2⟩
        simpa using h2
      have hlT : l.name ≠ T := by
        intro h
        exact hno l (List.mem_cons_self _ _) h haof
      refine ih _ ?_ ?_
      · rw [lookupLink_setLinkEntry_other l.name _ T (Ne.symm hlT)]
        exact h0
      · intro l2 hl2; exact hno l2 (List.mem_cons_of_mem _ hl2)
    · rw [if_neg hc]
      refine ih ls h0 ?_
      intro l2 hl2; exact hno l2 (List.mem_cons_of_mem _ hl2)

/-- **C4.** Title-redirect fix-up: when the triple named after the
document's own title is marked as an alias of canonical term `T`, link
resolution succeeds, `T` becomes one of the document's aliases, the
resulting links mapping has no entry for `T`, and every other triple that
was an alias of `T` is re-pointed to be an alias of the document's
title. -/
theorem c4_title_redirect_fixup (title T : String) (alt : Finset String)
    (sm : String) (secs : List (String × String))
    (links0 : List (String × Finset String)) (res : List PLink) (tl : PLink)
    (hwf : WfLinks res) (htl : tl ∈ res) (hname : tl.name = title)
    (hredir : tl.alt_of = some T) (hex : ∃ l ∈ res, l.name = T)
    (hl0 : lookupLink links0 T = none) :
    ∃ out alt2 links2,
      fixupRedirect title res = some out ∧
      parseLinksModel (.article title alt sm secs links0) res
        = some (.article title alt2 (stripEm sm)
            (secs.map (fun p => (p.1, stripEm p.2))) links2) ∧
      T ∈ alt2 ∧
      lookupLink links2 T = none ∧
      (∀ l ∈ res, l.alt_of = some T → l.name ≠ title →
        ∃ l2 ∈ out, l2.name = l.name ∧ l2.alt_of = some title) := by
  obtain ⟨hnd, hsd, _⟩ := hwf
  obtain ⟨out, extras, hfr, hfindout, hexne, hTnamed, hrepoint, _⟩ :=
    fixupRedirect_spec title T res tl hnd hsd htl hname hredir hex
  have hTt : T ≠ title := by
    intro h
    exact hsd tl htl (by rw [hredir, h, ← hname])
  refine ⟨out, alt ∪ (T :: extras).toFinset,
    out.foldl (fun ls l =>
      if !(l.name == title) && l.alt_of == none then
        setLinkEntry ls l.name (l.alter.getD []).toFinset
      else ls) links0,
    hfr, ?_, ?_, ?_, hrepoint⟩
  · simp only [parseLinksModel, hfr, hfindout]
    rfl
  · apply Finset.mem_union_right
    simp
  · refine foldl_setLinks_none title T out links0 hl0 ?_
    intro l hl hlT
    rw [hTnamed l hl hlT]
    simp

theorem c4_title_redirect_fixup_witness :
    ∃ out alt2 links2,
      fixupRedirect "X" exResXY = some out ∧
      parseLinksModel (.article "X" ∅ "" [] []) exResXY
        = some (.article "X" alt2 (stripEm "")
            (([] : List (String × String)).map (fun p => (p.1, stripEm p.2)))
            links2) ∧
      "Y" ∈ alt2 ∧
      lookupLink links2 "Y" = none ∧
      (∀ l ∈ exResXY, l.alt_of = some "Y" → l.name ≠ "X" →
        ∃ l2 ∈ out, l2.name = l.name ∧ l2.alt_of = some "X") :=
  c4_title_redirect_fixup "X" "Y" ∅ "" [] [] exResXY
    ⟨"X", none, some "Y"⟩ (by decide) (by decide) rfl rfl
    ⟨⟨"Y", some ["X"], none⟩, by decide, rfl⟩ rfl

/-- **C9.** A document's alias set never gains its own title: link
resolution never adds the title to the aliases when the input satisfies
the validated contract, and the proto-proto alias merge of upsert
preserves title-freeness when both operands satisfy it. -/
theorem c9_alias_never_own_title :
    (∀ (title : String) (alt : Finset String) (sm : String)
      (secs : List (String × String))
      (links0 : List (String × Finset String)) (res : List PLink)
      (out : Doc),
      WfLinks res → title ∉ alt →
      parseLinksModel (.article title alt sm secs links0) res = some out →
      title ∉ out.altTitles) ∧
    (∀ (s : Store) (x : String) (a alt : Finset String),
      readDocI s x = some (.proto x a) → x ∉ a → x ∉ alt →
      upsertDoc s (.proto x alt) = s.writeBlob (.proto x (a ∪ alt)) ∧
      x ∉ a ∪ alt) := by
  constructor
  · intro title alt sm secs links0 res out hwf halt hout
    obtain ⟨hnd, hsd, halter⟩ := hwf
    cases hfind : res.find? (fun l => l.name == title) with
    | none =>
      have hfr : fixupRedirect title res = some res := by
        simp only [fixupRedirect, hfind]
      simp only [parseLinksModel, hfr, hfind, Option.some_inj] at hout
      rw [← hout]
      exact halt
    | some tl =>
      have htl : tl ∈ res := List.mem_of_find?_eq_some hfind
      have hname : tl.name = title := by
        have := List.find?_some hfind
        simpa using this
      cases hredir : tl.alt_of with
      | none =>
        have hfr : fixupRedirect title res = some res := by
          simp only [fixupRedirect, hfind, hredir]
        simp only [parseLinksModel, hfr, hfind, Option.some_inj] at hout
        rw [← hout]
        simp only [Doc.altTitles, Finset.mem_union, List.mem_toFinset]
        rintro (h | h)
        · exact halt h
        · exact halter tl htl title h hname.symm
      | some T =>
        have hTt : T ≠ title := by
          intro h
          exact hsd tl htl (by rw [hredir, h, ← hname])
        cases hfT : (modifyFirst (fun l => l.name == title)
            (fixTitleCanon T) res).find? (fun l => l.name == T) with
        | none =>
          have hfr : fixupRedirect title res = none := by
            simp only [fixupRedirect, hfind, hredir, hfT]
          rw [parseLinksModel, hfr] at hout
          exact absurd hout (by simp)
        | some z =>
          have hex : ∃ l ∈ res, l.name = T := by
            have hz : z ∈ modifyFirst (fun l => l.name == title)
                (fixTitleCanon T) res := List.mem_of_find?_eq_some hfT
            have hzname : z.name = T := by
              have := List.find?_some hfT
              simpa using this
            have hzn : z.name ∈ res.map (·.name) := by
              rw [← modifyFirst_map_name (fun l => l.name == title)
                (fixTitleCanon T) (fun _ => rfl) res]
              exact List.mem_map_of_mem _ hz
            rcases List.mem_map.mp hzn with ⟨y, hy, hyz⟩
            exact ⟨y, hy, by rw [hyz, hzname]⟩
          obtain ⟨fout, extras, hfr, hfindout, hexne, _, _, _⟩ :=
            fixupRedirect_spec title T res tl hnd hsd htl hname hredir hex
          simp only [parseLinksModel, hfr, hfindout, Option.some_inj] at hout
          rw [← hout]
          simp only [Doc.altTitles, Finset.mem_union, List.mem_toFinset]
          rintro (h | h)
          · exact halt h
          · rcases List.mem_cons.mp h with h1 | h1
            · exact hTt h1.symm
            · exact hexne title h1 rfl
  · intro s x a alt hread hxa hxalt
    constructor
    · simp only [upsertDoc, Doc.title, hread]
    · simp only [Finset.mem_union]
      rintro (h | h)
      · exact hxa h
      · exact hxalt h

theorem c9_alias_never_own_title_witness :
    upsertDoc exW (.proto "B" {"b2"})
      = exW.writeBlob (.proto "B" ({"b1"} ∪ {"b2"})) ∧
    "B" ∉ ({"b1"} : Finset String) ∪ {"b2"} :=
  c9_alias_never_own_title.2 exW "B" {"b1"} {"b2"}
    (by decide) (by decide) (by decide)

/-! Primitive store-operation lemmas used by the cleanup and write-fold
characterizations. -/

/-- `find?` by key through the blob-overwrite list shape. -/
theorem find?_overwrite (t : String) (d : Doc) (x : String) :
    ∀ ds : List (String × Doc),
      ((ds.filter (fun p => !(p.1 == t)) ++ [(t, d)]).find?
        (fun p => p.1 == x))
      = if x = t then some (t, d) else ds.find? (fun p => p.1 == x) := by
  intro ds
  induction ds with
  | nil =>
    by_cases hx : x = t
    · simp [hx]
    · have h1 : ((t, d).1 == x) = false := by simp; exact Ne.symm hx
      simp only [List.filter_nil, List.nil_append, List.find?_cons, h1,
        if_neg hx]
  | cons p rest ih =>
    by_cases hpt : p.1 = t
    · have hc : (!(p.1 == t)) = false := by simp [hpt]
      rw [List.filter_cons_of_neg (by simp [hpt])]
      rw [ih]
      by_cases hx : x = t
      · simp [hx]
      · have h2 : (p.1 == x) = false := by simp [hpt]; exact Ne.symm hx
        rw [if_neg hx, if_neg hx, List.find?_cons, h2]
    · rw [List.filter_cons_of_pos (by simp [hpt])]
      cases hpx : p.1 == x with
      | true =>
        have hx : x ≠ t := by
          have : p.1 = x := by simpa using hpx
          rw [← this]; exact hpt
        simp only [List.cons_append, List.find?_cons, hpx, if_neg hx]
      | false =>
        simp only [List.cons_append, List.find?_cons, hpx]
        rw [ih]

/-- `find?` by key through the blob-delete list shape. -/
theorem find?_delete (t : String) (x : String) :
    ∀ ds : List (String × Doc),
      ((ds.filter (fun p => !(p.1 == t))).find? (fun p => p.1 == x))
      = if x = t then none else ds.find? (fun p => p.1 == x) := by
  intro ds
  induction ds with
  | nil => by_cases hx : x = t <;> simp [hx]
  | cons p rest ih =>
    by_cases hpt : p.1 = t
    · rw [List.filter_cons_of_neg (by simp [hpt])]
      rw [ih]
      by_cases hx : x = t
      · simp [hx]
      · have h2 : (p.1 == x) = false := by simp [hpt]; exact Ne.symm hx
        rw [if_neg hx, if_neg hx, List.find?_cons, h2]
    · rw [List.filter_cons_of_pos (by simp [hpt])]
      cases hpx : p.1 == x with
      | true =>
        have hx : x ≠ t := by
          have : p.1 = x := by simpa using hpx
          rw [← this]; exact hpt
        simp only [List.find?_cons, hpx, if_neg hx]
      | false =>
        simp only [List.find?_cons, hpx]
        rw [ih]

/-- A blob write replaces exactly its own slot. -/
theorem lookupDoc_writeBlob (s : Store) (d : Doc) (x : String) :
    lookupDoc (s.writeBlob d) x
      = if x = d.title then some d else lookupDoc s x := by
  unfold lookupDoc Store.writeBlob
  rw [find?_overwrite]
  by_cases hx : x = d.title <;> simp [hx]

/-- A blob delete empties exactly its own slot. -/
theorem lookupDoc_deleteBlob (s : Store) (t : String) (x : String) :
    lookupDoc (s.deleteBlob t) x
      = if x = t then none else lookupDoc s x := by
  unfold lookupDoc Store.deleteBlob
  rw [find?_delete]
  by_cases hx : x = t <;> simp [hx]

/-- Blob writes keep blobs keyed by their documents' own titles. -/
theorem writeBlob_wellKeyed (s : Store) (d : Doc)
    (hwk : ∀ p ∈ s.docs, (p.2).title = p.1) :
    ∀ p ∈ (s.writeBlob d).docs, (p.2).title = p.1 := by
  intro p hp
  rcases List.mem_append.mp hp with h | h
  · exact hwk p (List.mem_of_mem_filter h)
  · rw [List.mem_singleton.mp h]

/-- A well-keyed read yields a document titled by the name read. -/
theorem lookupDoc_title (s : Store) (x : String) (d : Doc)
    (hwk : ∀ p ∈ s.docs, (p.2).title = p.1)
    (h : lookupDoc s x = some d) : d.title = x := by
  unfold lookupDoc at h
  cases hf : s.docs.find? (fun p => p.1 == x) with
  | none => rw [hf] at h; simp at h
  | some p =>
    rw [hf] at h
    simp only [Option.map_some', Option.some_inj] at h
    have hpx : p.1 = x := by simpa using List.find?_some hf
    rw [← h, hwk p (List.mem_of_find?_eq_some hf), hpx]

/-- An edge keyed by a different title never matches `is _ _ t`. -/
theorem is_false_of_key_ne (e : GEdge) (a b t : String) (h : e.key ≠ t) :
    e.is a b t = false := by
  simp [GEdge.is, h]

/-- Two keyed-`t` edges at `t` with the same reported target are the same
undirected keyed edge. -/
theorem same_of_target (t : String) (e f : GEdge)
    (hek : e.key = t) (hfk : f.key = t)
    (het : e.touches t = true) (hft : f.touches t = true)
    (htgt : (if e.u == t then e.v else e.u) = (if f.u == t then f.v else f.u)) :
    sameEdge e f = true := by
  unfold sameEdge GEdge.is
  unfold GEdge.touches at het hft
  by_cases heu : e.u = t <;> by_cases hfu : f.u = t
  · rw [if_pos (by simp [heu]), if_pos (by simp [hfu])] at htgt
    simp [hek, hfk, heu, hfu, htgt]
  · have hfv : f.v = t := by
      rcases Bool.or_eq_true_iff.mp hft with h | h
      · exact absurd (by simpa using h) hfu
      · simpa using h
    rw [if_pos (by simp [heu]), if_neg (by simp [hfu])] at htgt
    simp [hek, hfk, heu, hfv, htgt]
  · have hev : e.v = t := by
      rcases Bool.or_eq_true_iff.mp het with h | h
      · exact absurd (by simpa using h) heu
      · simpa using h
    rw [if_neg (by simp [heu]), if_pos (by simp [hfu])] at htgt
    simp [hek, hfk, hev, hfu, htgt]
  · have hfv : f.v = t := by
      rcases Bool.or_eq_true_iff.mp hft with h | h
      · exact absurd (by simpa using h) hfu
      · simpa using h
    have hev : e.v = t := by
      rcases Bool.or_eq_true_iff.mp het with h | h
      · exact absurd (by simpa using h) heu
      · simpa using h
    rw [if_neg (by simp [heu]), if_neg (by simp [hfu])] at htgt
    simp [hek, hfk, hev, hfv, htgt]

/-- A link's proto-upsert never touches the edge list. -/
theorem upsertProtoDoc_edges (s : Store) (x : String) (a : Finset String) :
    (upsertProtoDoc s x a).graph.edges = s.graph.edges := by
  unfold upsertProtoDoc
  cases h : readDocI s x with
  | none => rfl
  | some d => cases d <;> rfl

/-- After a link's proto-upsert, inserting the link's node gives the same
node set as inserting it into the original store. -/
theorem upsertProtoDoc_nodes (s : Store) (x : String) (a : Finset String) :
    insert x (upsertProtoDoc s x a).graph.nodes
      = insert x s.graph.nodes := by
  unfold upsertProtoDoc
  cases h : readDocI s x with
  | none => simp [Store.addNode, Graph.addNode, Store.writeBlob]
  | some d => cases d <;> rfl

/-- What the link's proto-upsert leaves stored at the link's own title. -/
theorem upsertProtoDoc_lookup_self (s : Store) (x : String)
    (a : Finset String) (hwk : ∀ p ∈ s.docs, (p.2).title = p.1) :
    lookupDoc (upsertProtoDoc s x a) x = mergeSpec (readDocI s x) x a := by
  unfold upsertProtoDoc
  cases h : readDocI s x with
  | none =>
    dsimp only
    rw [lookupDoc_writeBlob]
    simp [mergeSpec, Doc.title]
  | some d =>
    have hl : lookupDoc s x = some d := by
      unfold readDocI at h
      by_cases hn : x ∈ s.graph.nodes
      · rwa [if_pos hn] at h
      · rw [if_neg hn] at h; exact absurd h (by simp)
    have ht : d.title = x := lookupDoc_title s x d hwk hl
    cases d with
    | proto t b =>
      dsimp only
      rw [lookupDoc_writeBlob]
      have htx : t = x := by simpa [Doc.title] using ht
      rw [if_pos (show x = (Doc.proto t (b ∪ a)).title from by
        simp [Doc.title, htx])]
      rfl
    | article t al sm se li =>
      dsimp only
      rw [hl]
      rfl

/-- A link's proto-upsert writes no blob slot other than its own. -/
theorem upsertProtoDoc_lookup_other (s : Store) (x : String)
    (a : Finset String) (y : String) (hyx : y ≠ x)
    (hwk : ∀ p ∈ s.docs, (p.2).title = p.1) :
    lookupDoc (upsertProtoDoc s x a) y = lookupDoc s y := by
  unfold upsertProtoDoc
  cases h : readDocI s x with
  | none =>
    dsimp only
    rw [lookupDoc_writeBlob]
    rw [if_neg (show ¬ y = (Doc.proto x a).title from by
      simpa [Doc.title] using hyx)]
    rfl
  | some d =>
    have hl : lookupDoc s x = some d := by
      unfold readDocI at h
      by_cases hn : x ∈ s.graph.nodes
      · rwa [if_pos hn] at h
      · rw [if_neg hn] at h; exact absurd h (by simp)
    have ht : d.title = x := lookupDoc_title s x d hwk hl
    cases d with
    | proto t b =>
      dsimp only
      rw [lookupDoc_writeBlob]
      have htx : t = x := by simpa [Doc.title] using ht
      rw [if_neg (show ¬ y = (Doc.proto t (b ∪ a)).title from by
        simp [Doc.title, htx]; exact hyx)]
    | article t al sm se li => rfl

/-- A link's proto-upsert keeps blobs well-keyed. -/
theorem upsertProtoDoc_wellKeyed (s : Store) (x : String)
    (a : Finset String) (hwk : ∀ p ∈ s.docs, (p.2).title = p.1) :
    ∀ p ∈ (upsertProtoDoc s x a).docs, (p.2).title = p.1 := by
  unfold upsertProtoDoc
  cases h : readDocI s x with
  | none =>
    dsimp only
    exact writeBlob_wellKeyed _ _ hwk
  | some d =>
    cases d with
    | proto t b =>
      dsimp only
      exact writeBlob_wellKeyed _ _ hwk
    | article t al sm se li => exact hwk

/-- `add_edge` with a keyed edge not already present appends it and
inserts its endpoints. -/
theorem addEdge_spec (s : Store) (a b k : String)
    (h : ∀ e ∈ s.graph.edges, e.is a b k = false) :
    (s.addEdge a b k).graph.edges = s.graph.edges ++ [⟨a, b, k⟩] ∧
    (s.addEdge a b k).graph.nodes = insert a (insert b s.graph.nodes) ∧
    (s.addEdge a b k).docs = s.docs := by
  have hany : s.graph.edges.any (fun e => e.is a b k) = false := by
    rw [List.any_eq_false]
    intro e he
    simp [h e he]
  refine ⟨?_, rfl, rfl⟩
  show (s.graph.addEdge a b k).edges = _
  unfold Graph.addEdge
  simp [hany]

/-- The freshly authored edge for one link never matches another link's
edge pattern when the link targets differ. -/
theorem is_new_edge_false (t k p1 : String) (hkp : k ≠ p1) :
    (GEdge.mk t k t).is t p1 t = false := by
  by_cases h1 : t = p1
  · by_cases h2 : k = t
    · exact absurd (h2.trans h1) hkp
    · simp [GEdge.is, h1, h2, hkp]
  · simp [GEdge.is, h1, hkp]

/-- The graph-and-links half of `_write_doc` for an article: starting
from a store with the article's node present, no stale keyed edge
matching any link, distinct link targets, and well-keyed blobs, the fold
appends exactly the article's authored edges, inserts exactly the link
target nodes, keeps blobs well-keyed, leaves non-target blobs alone, and
leaves each target's blob as `_upsert_doc(ProtoArticle(target, alts))`
dictates. -/
theorem writeLinksFold_spec (t : String) :
    ∀ (links : List (String × Finset String)) (s : Store),
      (links.map Prod.fst).Nodup →
      (∀ e ∈ s.graph.edges, ∀ p ∈ links, e.is t p.1 t = false) →
      t ∈ s.graph.nodes →
      (∀ p ∈ s.docs, (p.2).title = p.1) →
      (links.foldl (fun st p => (upsertProtoDoc st p.1 p.2).addEdge t p.1 t)
          s).graph.edges = s.graph.edges ++ newEdges t links ∧
      (links.foldl (fun st p => (upsertProtoDoc st p.1 p.2).addEdge t p.1 t)
          s).graph.nodes = s.graph.nodes ∪ (links.map Prod.fst).toFinset ∧
      (∀ p ∈ (links.foldl
          (fun st p => (upsertProtoDoc st p.1 p.2).addEdge t p.1 t)
          s).docs, (p.2).title = p.1) ∧
      (∀ x, (∀ b, (x, b) ∉ links) →
        lookupDoc (links.foldl
          (fun st p => (upsertProtoDoc st p.1 p.2).addEdge t p.1 t) s) x
          = lookupDoc s x) ∧
      (∀ x b, (x, b) ∈ links →
        lookupDoc (links.foldl
          (fun st p => (upsertProtoDoc st p.1 p.2).addEdge t p.1 t) s) x
          = mergeSpec (readDocI s x) x b) := by
  intro links
  induction links with
  | nil =>
    intro s _ _ _ hwk
    refine ⟨by simp [newEdges], by simp, hwk, fun x _ => rfl, ?_⟩
    intro x b hb
    exact absurd hb (List.not_mem_nil _)
  | cons kb rest ih =>
    intro s hnd hcompat htn hwk
    obtain ⟨k, b⟩ := kb
    rw [List.map_cons] at hnd
    have hnd' := List.nodup_cons.mp hnd
    have hknr : ∀ p ∈ rest, k ≠ p.1 := by
      intro p hp hkp
      apply hnd'.1
      have hmem : p.1 ∈ rest.map Prod.fst := List.mem_map_of_mem Prod.fst hp
      rwa [← hkp] at hmem
    -- the one-step state
    have hs1e : (upsertProtoDoc s k b).graph.edges = s.graph.edges :=
      upsertProtoDoc_edges s k b
    have hstep := addEdge_spec (upsertProtoDoc s k b) t k t (by
      rw [hs1e]
      intro e he
      exact hcompat e he (k, b) (List.mem_cons_self _ _))
    have hs2e : ((upsertProtoDoc s k b).addEdge t k t).graph.edges
        = s.graph.edges ++ [⟨t, k, t⟩] := by rw [hstep.1, hs1e]
    have hs2n : ((upsertProtoDoc s k b).addEdge t k t).graph.nodes
        = insert t (insert k s.graph.nodes) := by
      rw [hstep.2.1, upsertProtoDoc_nodes]
    have hs2wk : ∀ p ∈ ((upsertProtoDoc s k b).addEdge t k t).docs,
        (p.2).title = p.1 := by
      rw [hstep.2.2]
      exact upsertProtoDoc_wellKeyed s k b hwk
    have hs2lk : lookupDoc ((upsertProtoDoc s k b).addEdge t k t) k
        = mergeSpec (readDocI s k) k b := by
      show lookupDoc (upsertProtoDoc s k b) k = _
      exact upsertProtoDoc_lookup_self s k b hwk
    have hs2lo : ∀ y, y ≠ k →
        lookupDoc ((upsertProtoDoc s k b).addEdge t k t) y
          = lookupDoc s y := by
      intro y hy
      show lookupDoc (upsertProtoDoc s k b) y = _
      exact upsertProtoDoc_lookup_other s k b y hy hwk
    -- the tail hypotheses
    have hcompat2 : ∀ e ∈ ((upsertProtoDoc s k b).addEdge t k t).graph.edges,
        ∀ p ∈ rest, e.is t p.1 t = false := by
      rw [hs2e]
      intro e he p hp
      rcases List.mem_append.mp he with h1 | h1
      · exact hcompat e h1 p (List.mem_cons_of_mem _ hp)
      · rw [List.mem_singleton.mp h1]
        exact is_new_edge_false t k p.1 (hknr p hp)
    have htn2 : t ∈ ((upsertProtoDoc s k b).addEdge t k t).graph.nodes := by
      rw [hs2n]
      exact Finset.mem_insert_self t _
    obtain ⟨ihE, ihN, ihK, ihD0, ihD1⟩ :=
      ih ((upsertProtoDoc s k b).addEdge t k t) hnd'.2 hcompat2 htn2 hs2wk
    have hreadeq : ∀ x, x ≠ k →
        readDocI ((upsertProtoDoc s k b).addEdge t k t) x = readDocI s x := by
      intro x hx
      unfold readDocI
      rw [hs2n, hs2lo x hx]
      by_cases hxs : x ∈ s.graph.nodes
      · rw [if_pos hxs, if_pos (by simp [hxs])]
      · have : ¬ x ∈ insert t (insert k s.graph.nodes) := by
          simp only [Finset.mem_insert]
          rintro (h | h | h)
          · rw [h] at hxs; exact hxs htn
          · exact hx h
          · exact hxs h
        rw [if_neg hxs, if_neg this]
    simp only [List.foldl_cons]
    refine ⟨?_, ?_, ihK, ?_, ?_⟩
    · rw [ihE, hs2e, List.append_assoc]
      rfl
    · rw [ihN, hs2n]
      ext z
      simp only [List.map_cons, Finset.mem_union, Finset.mem_insert,
        List.toFinset_cons, List.mem_toFinset]
      constructor
      · rintro ((h | h | h) | h)
        · subst h; exact Or.inl htn
        · exact Or.inr (Or.inl h)
        · exact Or.inl h
        · exact Or.inr (Or.inr h)
      · rintro (h | h | h)
        · exact Or.inl (Or.inr (Or.inr h))
        · exact Or.inl (Or.inr (Or.inl h))
        · exact Or.inr h
    · intro x hx
      have hxk : x ≠ k := by
        intro h
        exact hx b (by rw [h]; exact List.mem_cons_self _ _)
      rw [ihD0 x (fun c hc => hx c (List.mem_cons_of_mem _ hc))]
      exact hs2lo x hxk
    · intro x c hxc
      rcases List.mem_cons.mp hxc with h1 | h1
      · have hxk : x = k := congrArg Prod.fst h1
        have hcb : c = b := congrArg Prod.snd h1
        subst hxk
        subst hcb
        rw [ihD0 x (fun c hc => hknr (x, c) hc rfl)]
        exact hs2lk
      · have hxk : x ≠ k := by
          intro h
          exact hknr (x, c) h1 h.symm
        rw [ihD1 x c h1, hreadeq x hxk]

/-- `_write_doc(article, write_graph=True)` in full: appends exactly the
authored keyed edges, adds the article node and its link target nodes,
stores the article blob, merges each target's placeholder, and leaves
everything else alone — provided the store holds no stale keyed edge of
the article's title, targets are distinct, and blobs are well-keyed. -/
theorem writeDocI_article_spec (s : Store) (t : String) (alt : Finset String)
    (sm : String) (secs : List (String × String))
    (links : List (String × Finset String))
    (hnd : (links.map Prod.fst).Nodup)
    (hkey : ∀ e ∈ s.graph.edges, e.key ≠ t)
    (hwk : ∀ p ∈ s.docs, (p.2).title = p.1) :
    (writeDocI s (.article t alt sm secs links) true).graph.edges
      = s.graph.edges ++ newEdges t links ∧
    (writeDocI s (.article t alt sm secs links) true).graph.nodes
      = insert t s.graph.nodes ∪ (links.map Prod.fst).toFinset ∧
    (∀ p ∈ (writeDocI s (.article t alt sm secs links) true).docs,
      (p.2).title = p.1) ∧
    lookupDoc (writeDocI s (.article t alt sm secs links) true) t
      = some (.article t alt sm secs links) ∧
    (∀ x, x ≠ t → (∀ b, (x, b) ∉ links) →
      lookupDoc (writeDocI s (.article t alt sm secs links) true) x
        = lookupDoc s x) ∧
    (∀ x b, x ≠ t → (x, b) ∈ links →
      lookupDoc (writeDocI s (.article t alt sm secs links) true) x
        = mergeSpec (readDocI s x) x b) := by
  have hW : writeDocI s (.article t alt sm secs links) true
      = (writeArticleGraph s t links).writeBlob
          (.article t alt sm secs links) := rfl
  have hWA : writeArticleGraph s t links
      = links.foldl (fun st p => (upsertProtoDoc st p.1 p.2).addEdge t p.1 t)
          (s.addNode t) := rfl
  have hcompat : ∀ e ∈ (s.addNode t).graph.edges, ∀ p ∈ links,
      e.is t p.1 t = false := by
    intro e he p _
    exact is_false_of_key_ne e t p.1 t (hkey e he)
  obtain ⟨hE, hN, hK, hD0, hD1⟩ := writeLinksFold_spec t links (s.addNode t)
    hnd hcompat (Finset.mem_insert_self t _) hwk
  rw [← hWA] at hE hN hK hD0 hD1
  refine ⟨?_, ?_, ?_, ?_, ?_, ?_⟩
  · rw [hW]
    exact hE
  · rw [hW]
    exact hN
  · rw [hW]
    exact writeBlob_wellKeyed _ _ hK
  · rw [hW, lookupDoc_writeBlob]
    simp [Doc.title]
  · intro x hxt hxl
    rw [hW, lookupDoc_writeBlob,
      if_neg (show ¬ x = (Doc.article t alt sm secs links).title from by
        simpa [Doc.title] using hxt)]
    exact hD0 x hxl
  · intro x b hxt hxb
    rw [hW, lookupDoc_writeBlob,
      if_neg (show ¬ x = (Doc.article t alt sm secs links).title from by
        simpa [Doc.title] using hxt)]
    rw [hD1 x b hxb]
    have : readDocI (s.addNode t) x = readDocI s x := by
      unfold readDocI
      have hlk : lookupDoc (s.addNode t) x = lookupDoc s x := rfl
      rw [hlk]
      by_cases hxs : x ∈ s.graph.nodes
      · rw [if_pos hxs, if_pos (by
          show x ∈ (s.graph.addNode t).nodes
          unfold Graph.addNode
          simp [hxs])]
      · rw [if_neg hxs, if_neg (by
          show ¬ x ∈ (s.graph.addNode t).nodes
          unfold Graph.addNode
          simp [hxt, hxs])]
    rw [this]

/-- A stored document is not both a placeholder and an article. -/
theorem not_proto_and_article (od : Option Doc) :
    isProtoOpt od = true → isArticleOpt od = true → False := by
  cases od with
  | none => simp [isProtoOpt]
  | some d => cases d <;> simp [isProtoOpt, isArticleOpt, Doc.isProto, Doc.isArticle]

theorem lookupDoc_removeEdge (s : Store) (a b k x : String) :
    lookupDoc (s.removeEdge a b k) x = lookupDoc s x := rfl

theorem lookupDoc_removeNode (s : Store) (n x : String) :
    lookupDoc (s.removeNode n) x = lookupDoc s x := rfl

/-- The orphan-deletion predicate transports across a store whose edges
are the original ones minus the `(t, l, key=t)` edge and whose blob at
`l'` is unchanged, for any other old target `l'`. -/
theorem delPred_transport (s s1 : Store) (t l l' : String)
    (hne : l' ≠ l)
    (hE : s1.graph.edges = s.graph.edges.filter (fun e => !(e.is t l t)))
    (hL : lookupDoc s1 l' = lookupDoc s l')
    (hart : l' = t → isArticleOpt (lookupDoc s l') = true) :
    delPred s1 t l' ↔ delPred s t l' := by
  unfold delPred
  rw [hL, hE]
  constructor
  · rintro ⟨h1, h2⟩
    refine ⟨h1, ?_⟩
    intro e he htch
    by_cases hel : e.is t l t
    · exfalso
      simp only [GEdge.is, Bool.and_eq_true, Bool.or_eq_true,
        beq_iff_eq] at hel
      simp only [GEdge.touches, Bool.or_eq_true, beq_iff_eq] at htch
      have hlt : l' = t ∨ l' = l := by
        rcases hel.2 with ⟨hu, hv⟩ | ⟨hu, hv⟩ <;>
          rcases htch with h | h
        · left; rw [← h, hu]
        · right; rw [← h, hv]
        · right; rw [← h, hu]
        · left; rw [← h, hv]
      rcases hlt with h | h
      · exact not_proto_and_article _ h1 (hart h)
      · exact hne h
    · exact h2 e (List.mem_filter.mpr ⟨he, by simp [hel]⟩) htch
  · rintro ⟨h1, h2⟩
    refine ⟨h1, ?_⟩
    intro e he htch
    exact h2 e (List.mem_of_mem_filter he) htch

/-- The whole cleanup loop of replace-with-cleanup, characterized over
the original store: all keyed edges towards distinct readable targets are
removed, exactly the orphaned placeholder targets lose their node, and
exactly their blobs are deleted. -/
theorem cleanupFold_spec (t : String) :
    ∀ (targets : List String) (s : Store),
      targets.Nodup →
      (∀ l ∈ targets, l ∈ s.graph.nodes ∧ lookupDoc s l ≠ none) →
      (∀ l ∈ targets, l = t → isArticleOpt (lookupDoc s l) = true) →
      (cleanupFold t targets s).graph.edges
        = s.graph.edges.filter
            (fun e => !(targets.any (fun l => e.is t l t))) ∧
      (cleanupFold t targets s).graph.nodes
        = s.graph.nodes \
            (targets.filter (fun l => decide (delPred s t l))).toFinset ∧
      (∀ x, lookupDoc (cleanupFold t targets s) x
        = if x ∈ targets ∧ delPred s t x then none else lookupDoc s x) := by
  intro targets
  induction targets with
  | nil =>
    intro s _ _ _
    refine ⟨by simp [cleanupFold], by simp [cleanupFold], ?_⟩
    intro x
    simp [cleanupFold]
  | cons l rest ih =>
    intro s hnd hread hart
    have hnd' := List.nodup_cons.mp hnd
    obtain ⟨hln, hlk⟩ := hread l (List.mem_cons_self _ _)
    obtain ⟨d, hd⟩ : ∃ d, lookupDoc s l = some d := by
      cases h : lookupDoc s l with
      | none => exact absurd h hlk
      | some d => exact ⟨d, rfl⟩
    have hrd : readDocI s l = some d := by
      unfold readDocI
      rw [if_pos hln, hd]
    have hfold : cleanupFold t (l :: rest) s
        = cleanupFold t rest (cleanupLink t s l) := rfl
    -- branch facts: in every branch the step's edges are the filtered
    -- ones, its nodes and docs depend on the orphan decision
    have hbranch :
        (cleanupLink t s l).graph.edges
            = s.graph.edges.filter (fun e => !(e.is t l t)) ∧
        ((delPred s t l →
            (cleanupLink t s l).graph.nodes = s.graph.nodes.erase l ∧
            ∀ x, lookupDoc (cleanupLink t s l) x
              = if x = l then none else lookupDoc s x) ∧
          (¬ delPred s t l →
            (cleanupLink t s l).graph.nodes = s.graph.nodes ∧
            ∀ x, lookupDoc (cleanupLink t s l) x = lookupDoc s x)) := by
      unfold cleanupLink
      rw [hrd]
      cases d with
      | article t0 al sm se li =>
        dsimp only
        have hnd2 : ¬ delPred s t l := by
          rintro ⟨h1, _⟩
          rw [hd] at h1
          simp [isProtoOpt, Doc.isProto] at h1
        refine ⟨rfl, fun hdel => absurd hdel hnd2, fun _ => ⟨rfl, fun x => rfl⟩⟩
      | proto t0 al =>
        dsimp only
        have hproto : isProtoOpt (lookupDoc s l) = true := by
          rw [hd]; rfl
        have hcnt : ((s.removeEdge t l t).graph.incidentCount l = 0)
            ↔ delPred s t l := by
          unfold Graph.incidentCount delPred
          constructor
          · intro h0
            refine ⟨hproto, ?_⟩
            intro e he htch
            by_cases hel : e.is t l t
            · exact hel
            · exfalso
              have hmem : e ∈ (s.removeEdge t l t).graph.edges.filter
                  (·.touches l) :=
                List.mem_filter.mpr
                  ⟨List.mem_filter.mpr ⟨he, by simp [hel]⟩, htch⟩
              rw [List.length_eq_zero.mp h0] at hmem
              exact absurd hmem (List.not_mem_nil e)
          · rintro ⟨_, h2⟩
            rw [List.length_eq_zero]
            rw [List.filter_eq_nil]
            intro e he
            have he' : e ∈ s.graph.edges.filter (fun e => !(e.is t l t)) := he
            have he2 := List.mem_filter.mp he'
            intro htch
            have := h2 e he2.1 htch
            simp [this] at he2
        by_cases hdel : (s.removeEdge t l t).graph.incidentCount l = 0
        · rw [if_pos hdel]
          have hdp : delPred s t l := hcnt.mp hdel
          refine ⟨?_, fun _ => ⟨rfl, ?_⟩, fun hnd3 => absurd hdp hnd3⟩
          · -- removing the now isolated node removes no further edge
            show ((s.removeEdge t l t).graph.edges.filter
                (fun e => !(e.touches l))) = _
            have : ∀ e ∈ (s.removeEdge t l t).graph.edges,
                (!(e.touches l)) = true := by
              intro e he
              have he2 := List.mem_filter.mp he
              by_cases htch : e.touches l
              · have := hdp.2 e he2.1 htch
                simp [this] at he2
              · simp [htch]
            exact List.filter_eq_self.mpr this
          · intro x
            show lookupDoc (((s.removeEdge t l t).removeNode l).deleteBlob l) x = _
            rw [lookupDoc_deleteBlob]
            rfl
        · rw [if_neg hdel]
          have hdp : ¬ delPred s t l := fun h => hdel (hcnt.mpr h)
          exact ⟨rfl, fun h => absurd h hdp, fun _ => ⟨rfl, fun x => rfl⟩⟩
    -- IH on the stepped store
    have hread2 : ∀ l' ∈ rest,
        l' ∈ (cleanupLink t s l).graph.nodes ∧
        lookupDoc (cleanupLink t s l) l' ≠ none := by
      intro l' hl'
      have hne : l' ≠ l := fun h => hnd'.1 (h ▸ hl')
      obtain ⟨h1, h2⟩ := hread l' (List.mem_cons_of_mem _ hl')
      by_cases hdel : delPred s t l
      · obtain ⟨hn, hdoc⟩ := hbranch.2.1 hdel
        rw [hn, hdoc]
        exact ⟨Finset.mem_erase.mpr ⟨hne, h1⟩, by rw [if_neg hne]; exact h2⟩
      · obtain ⟨hn, hdoc⟩ := hbranch.2.2 hdel
        rw [hn, hdoc]
        exact ⟨h1, h2⟩
    have hlookup2 : ∀ l' , l' ≠ l →
        lookupDoc (cleanupLink t s l) l' = lookupDoc s l' := by
      intro l' hne
      by_cases hdel : delPred s t l
      · rw [(hbranch.2.1 hdel).2 l', if_neg hne]
      · rw [(hbranch.2.2 hdel).2 l']
    have hart2 : ∀ l' ∈ rest, l' = t →
        isArticleOpt (lookupDoc (cleanupLink t s l) l') = true := by
      intro l' hl' hlt
      have hne : l' ≠ l := fun h => hnd'.1 (h ▸ hl')
      rw [hlookup2 l' hne]
      exact hart l' (List.mem_cons_of_mem _ hl') hlt
    obtain ⟨iE, iN, iD⟩ := ih (cleanupLink t s l) hnd'.2 hread2 hart2
    have hdeliff : ∀ l' ∈ rest,
        (delPred (cleanupLink t s l) t l' ↔ delPred s t l') := by
      intro l' hl'
      have hne : l' ≠ l := fun h => hnd'.1 (h ▸ hl')
      exact delPred_transport s (cleanupLink t s l) t l l' hne hbranch.1
        (hlookup2 l' hne)
        (fun h => hart l' (List.mem_cons_of_mem _ hl') h)
    have hfiltereq :
        rest.filter (fun l' => decide (delPred (cleanupLink t s l) t l'))
          = rest.filter (fun l' => decide (delPred s t l')) :=
      List.filter_congr (fun l' hl' =>
        decide_eq_decide.mpr (hdeliff l' hl'))
    rw [hfold]
    refine ⟨?_, ?_, ?_⟩
    · rw [iE, hbranch.1, List.filter_filter]
      refine List.filter_congr ?_
      intro e _
      rw [List.any_cons, Bool.not_or, Bool.and_comm]
    · rw [iN, hfiltereq]
      by_cases hdel : delPred s t l
      · rw [(hbranch.2.1 hdel).1]
        have hfc : (l :: rest).filter (fun l' => decide (delPred s t l'))
            = l :: rest.filter (fun l' => decide (delPred s t l')) := by
          rw [List.filter_cons_of_pos (by simp [hdel])]
        rw [hfc]
        ext z
        simp only [Finset.mem_sdiff, Finset.mem_erase, List.mem_toFinset,
          List.mem_cons]
        constructor
        · rintro ⟨⟨hzl, hzs⟩, hzr⟩
          exact ⟨hzs, by rintro (h | h); exact hzl h; exact hzr h⟩
        · rintro ⟨hzs, hzr⟩
          exact ⟨⟨fun h => hzr (Or.inl h), hzs⟩, fun h => hzr (Or.inr h)⟩
      · rw [(hbranch.2.2 hdel).1]
        have hfc : (l :: rest).filter (fun l' => decide (delPred s t l'))
            = rest.filter (fun l' => decide (delPred s t l')) := by
          rw [List.filter_cons_of_neg (by simp [hdel])]
        rw [hfc]
    · intro x
      rw [iD x]
      by_cases hxl : x = l
      · subst hxl
        have hxr : x ∉ rest := hnd'.1
        rw [if_neg (by rintro ⟨h, _⟩; exact hxr h)]
        by_cases hdel : delPred s t x
        · rw [(hbranch.2.1 hdel).2 x, if_pos rfl,
            if_pos ⟨List.mem_cons_self _ _, hdel⟩]
        · rw [(hbranch.2.2 hdel).2 x,
            if_neg (by rintro ⟨_, h⟩; exact hdel h)]
      · rw [hlookup2 x hxl]
        by_cases hxr : x ∈ rest
        · by_cases hdp : delPred s t x
          · rw [if_pos ⟨hxr, (hdeliff x hxr).mpr hdp⟩,
              if_pos ⟨List.mem_cons_of_mem _ hxr, hdp⟩]
          · rw [if_neg (by rintro ⟨_, h⟩; exact hdp ((hdeliff x hxr).mp h)),
              if_neg (by rintro ⟨_, h⟩; exact hdp h)]
        · have hcond : ¬ (x ∈ l :: rest ∧ delPred s t x) := by
            rintro ⟨h, _⟩
            rcases List.mem_cons.mp h with h1 | h1
            · exact hxl h1
            · exact hxr h1
          rw [if_neg (by rintro ⟨h, _⟩; exact hxr h), if_neg hcond]

/-- Each collected old-link target comes from an edge authored by `t`. -/
theorem mem_collect (s : Store) (t l : String)
    (h : l ∈ collectOldLinks s t) :
    ∃ e ∈ s.graph.edges, e.key = t ∧ e.touches t = true ∧
      e.is t l t = true := by
  unfold collectOldLinks at h
  rcases List.mem_map.mp h with ⟨e, he, hel⟩
  have he2 := List.mem_filter.mp he
  rcases Bool.and_eq_true_iff.mp he2.2 with ⟨htch, hkey⟩
  have hkey' : e.key = t := by simpa using hkey
  refine ⟨e, he2.1, hkey', htch, ?_⟩
  by_cases heu : e.u = t
  · rw [if_pos (by simp [heu])] at hel
    simp [GEdge.is, hkey', heu, hel]
  · rw [if_neg (by simp [heu])] at hel
    have hev : e.v = t := by
      rcases Bool.or_eq_true_iff.mp htch with h1 | h1
      · exact absurd (by simpa using h1) heu
      · simpa using h1
    simp [GEdge.is, hkey', hev, hel]

/-- Distinct collected targets: no two parallel edges share a key. -/
theorem collect_nodup (s : Store) (t : String)
    (hpw : s.graph.edges.Pairwise (fun e f => sameEdge e f = false)) :
    (collectOldLinks s t).Nodup := by
  unfold collectOldLinks
  have hpf := hpw.filter (fun e => e.touches t && e.key == t)
  rw [List.Nodup, List.pairwise_map]
  refine List.Pairwise.imp_of_mem ?_ hpf
  intro e f he hf hsame
  intro htgt
  have he2 := List.mem_filter.mp he
  have hf2 := List.mem_filter.mp hf
  rcases Bool.and_eq_true_iff.mp he2.2 with ⟨het, hek⟩
  rcases Bool.and_eq_true_iff.mp hf2.2 with ⟨hft, hfk⟩
  have := same_of_target t e f (by simpa using hek) (by simpa using hfk)
    het hft htgt
  rw [this] at hsame
  exact absurd hsame (by simp)

/-- Every edge keyed `t` is covered by a collected target (its own). -/
theorem collect_covers (s : Store) (t : String)
    (hk : ∀ e ∈ s.graph.edges, e.u = e.key ∨ e.v = e.key) :
    ∀ e ∈ s.graph.edges, e.key = t →
      ∃ l ∈ collectOldLinks s t, e.is t l t = true := by
  intro e he hek
  have ht : e.touches t = true := by
    rcases hk e he with h | h
    · simp [GEdge.touches, h, hek]
    · simp [GEdge.touches, h, hek]
  have hmem : e ∈ s.graph.edges.filter (fun e => e.touches t && e.key == t) :=
    List.mem_filter.mpr ⟨he, by simp [ht, hek]⟩
  refine ⟨if e.u == t then e.v else e.u, List.mem_map_of_mem _ hmem, ?_⟩
  by_cases heu : e.u = t
  · rw [if_pos (by simp [heu])]
    simp [GEdge.is, hek, heu]
  · have hev : e.v = t := by
      rcases Bool.or_eq_true_iff.mp ht with h1 | h1
      · exact absurd (by simpa using h1) heu
      · simpa using h1
    rw [if_neg (by simp [heu])]
    simp [GEdge.is, hek, hev]

/-- The cleanup loop keeps blobs well-keyed (it only deletes). -/
theorem cleanupFold_wellKeyed (t : String) :
    ∀ (targets : List String) (s : Store),
      (∀ p ∈ s.docs, (p.2).title = p.1) →
      ∀ p ∈ (cleanupFold t targets s).docs, (p.2).title = p.1 := by
  intro targets
  induction targets with
  | nil => intro s hwk; exact hwk
  | cons l rest ih =>
    intro s hwk
    have hstep : ∀ p ∈ (cleanupLink t s l).docs, (p.2).title = p.1 := by
      unfold cleanupLink
      cases h : readDocI s l with
      | none => exact hwk
      | some d =>
        cases d with
        | article t0 al sm se li => exact hwk
        | proto t0 al =>
          dsimp only
          by_cases hc : (s.removeEdge t l t).graph.incidentCount l = 0
          · rw [if_pos hc]
            intro p hp
            exact hwk p (List.mem_of_mem_filter hp)
          · rw [if_neg hc]
            exact hwk
    exact ih (cleanupLink t s l) hstep

/-- `_upsert_doc` in the article-over-article case is replace-with-cleanup
followed by the article write. -/
theorem upsertDoc_article_article (s : Store) (t : String)
    (alt : Finset String) (sm : String) (secs : List (String × String))
    (links : List (String × Finset String)) (rt : String)
    (a0 : Finset String) (s0 : String) (se0 : List (String × String))
    (l0 : List (String × Finset String))
    (hread : readDocI s t = some (.article rt a0 s0 se0 l0)) :
    upsertDoc s (.article t alt sm secs links)
      = writeDocI (cleanupFold rt (collectOldLinks s rt) s)
          (.article t alt sm secs links) true := by
  simp only [upsertDoc, Doc.title, hread]

/-- Reading succeeds exactly when the node exists and the blob is
there. -/
theorem readDocI_some_iff (s : Store) (x : String) (d : Doc) :
    readDocI s x = some d ↔ x ∈ s.graph.nodes ∧ lookupDoc s x = some d := by
  unfold readDocI
  by_cases hn : x ∈ s.graph.nodes
  · rw [if_pos hn]
    simp [hn]
  · rw [if_neg hn]
    simp [hn]

/-- An edge matching `is t B t` puts `B` (when distinct from `t`) among
the collected old-link targets of `t`. -/
theorem mem_collect_of_is (s : Store) (t B : String) (e : GEdge)
    (he : e ∈ s.graph.edges) (hise : e.is t B t = true) (hBt : B ≠ t) :
    B ∈ collectOldLinks s t := by
  simp only [GEdge.is, Bool.and_eq_true, Bool.or_eq_true, beq_iff_eq]
    at hise
  obtain ⟨hkey, hends⟩ := hise
  have htch : e.touches t = true := by
    rcases hends with ⟨hu, _⟩ | ⟨_, hv⟩
    · simp [GEdge.touches, hu]
    · simp [GEdge.touches, hv]
  have hmem : e ∈ s.graph.edges.filter
      (fun e => e.touches t && e.key == t) :=
    List.mem_filter.mpr ⟨he, by simp [htch, hkey]⟩
  unfold collectOldLinks
  apply List.mem_map.mpr
  refine ⟨e, hmem, ?_⟩
  rcases hends with ⟨hu, hv⟩ | ⟨hu, hv⟩
  · rw [if_pos (by simp [hu])]
    exact hv
  · rw [if_neg (by simp [hu]; exact hBt)]
    exact hu

/-- The cleaned store after collecting `t`'s authored edges: the edge
list filtered of them (hence no keyed-`t` edge at all), nodes minus the
orphaned placeholder targets, and blobs minus exactly those targets'. -/
theorem cleanup_base_spec (s : Store) (t : String)
    (hWF1 : ∀ e ∈ s.graph.edges, e.u = e.key ∨ e.v = e.key)
    (hWF2 : ∀ n ∈ s.graph.nodes, lookupDoc s n ≠ none)
    (hWF3 : ∀ e ∈ s.graph.edges, e.u ∈ s.graph.nodes ∧ e.v ∈ s.graph.nodes)
    (hWF5 : s.graph.edges.Pairwise (fun e f => sameEdge e f = false))
    (hart : isArticleOpt (lookupDoc s t) = true) :
    (cleanupFold t (collectOldLinks s t) s).graph.edges
      = s.graph.edges.filter
          (fun e => !((collectOldLinks s t).any (fun l => e.is t l t))) ∧
    (∀ e ∈ (cleanupFold t (collectOldLinks s t) s).graph.edges,
      e.key ≠ t) ∧
    (cleanupFold t (collectOldLinks s t) s).graph.nodes
      = s.graph.nodes \ ((collectOldLinks s t).filter
          (fun l => decide (delPred s t l))).toFinset ∧
    (∀ x, lookupDoc (cleanupFold t (collectOldLinks s t) s) x
      = if x ∈ collectOldLinks s t ∧ delPred s t x then none
        else lookupDoc s x) := by
  have hreadable : ∀ l ∈ collectOldLinks s t,
      l ∈ s.graph.nodes ∧ lookupDoc s l ≠ none := by
    intro l hl
    obtain ⟨e, he, _, _, hise⟩ := mem_collect s t l hl
    simp only [GEdge.is, Bool.and_eq_true, Bool.or_eq_true, beq_iff_eq]
      at hise
    have hln : l ∈ s.graph.nodes := by
      rcases hise.2 with ⟨_, hv⟩ | ⟨hu, _⟩
      · rw [← hv]; exact (hWF3 e he).2
      · rw [← hu]; exact (hWF3 e he).1
    exact ⟨hln, hWF2 l hln⟩
  have hartl : ∀ l ∈ collectOldLinks s t, l = t →
      isArticleOpt (lookupDoc s l) = true := by
    intro l _ hlt
    rw [hlt]
    exact hart
  obtain ⟨hE, hN, hD⟩ := cleanupFold_spec t (collectOldLinks s t) s
    (collect_nodup s t hWF5) hreadable hartl
  refine ⟨hE, ?_, hN, hD⟩
  intro e he hkey
  rw [hE] at he
  have he2 := List.mem_filter.mp he
  obtain ⟨l, hl, hisl⟩ := collect_covers s t hWF1 e he2.1 hkey
  have : (collectOldLinks s t).any (fun l => e.is t l t) = true :=
    List.any_eq_true.mpr ⟨l, hl, hisl⟩
  simp [this] at he2

/-- The fate of one old target `B` across a full article-over-article
upsert of `A`: orphaned placeholders vanish from graph and blob store,
anything else keeps its node and blob. -/
theorem upsert_article_target_outcome (s : Store) (A B : String)
    (alta : Finset String) (sma : String) (seca : List (String × String))
    (oldL : List (String × Finset String)) (alt2 : Finset String)
    (sm2 : String) (sec2 : List (String × String))
    (newL : List (String × Finset String))
    (hWF : WellFormed s)
    (hreadA : readDocI s A = some (.article A alta sma seca oldL))
    (hBnotnew : ∀ b, (B, b) ∉ newL)
    (hBA : B ≠ A)
    (hnd : (newL.map Prod.fst).Nodup) :
    (delPred s A B ∧ B ∈ collectOldLinks s A →
      B ∉ (upsertDoc s (.article A alt2 sm2 sec2 newL)).graph.nodes ∧
      lookupDoc (upsertDoc s (.article A alt2 sm2 sec2 newL)) B = none) ∧
    (¬ delPred s A B →
      (B ∈ s.graph.nodes →
        B ∈ (upsertDoc s (.article A alt2 sm2 sec2 newL)).graph.nodes) ∧
      lookupDoc (upsertDoc s (.article A alt2 sm2 sec2 newL)) B
        = lookupDoc s B) := by
  obtain ⟨hWF1, hWF2, hWF3, hWF4, hWF5, _, _⟩ := hWF
  obtain ⟨hAn, hAl⟩ := (readDocI_some_iff s A _).mp hreadA
  have hart : isArticleOpt (lookupDoc s A) = true := by
    rw [hAl]; rfl
  obtain ⟨bE, bK, bN, bD⟩ := cleanup_base_spec s A hWF1 hWF2 hWF3 hWF5 hart
  have hups : upsertDoc s (.article A alt2 sm2 sec2 newL)
      = writeDocI (cleanupFold A (collectOldLinks s A) s)
          (.article A alt2 sm2 sec2 newL) true :=
    upsertDoc_article_article s A alt2 sm2 sec2 newL A alta sma seca oldL
      hreadA
  have wkbase := cleanupFold_wellKeyed A (collectOldLinks s A) s hWF4
  obtain ⟨wE, wN, wK, wT, wD0, wD1⟩ := writeDocI_article_spec
    (cleanupFold A (collectOldLinks s A) s) A alt2 sm2 sec2 newL hnd bK
    wkbase
  have hBkeys : B ∉ (newL.map Prod.fst).toFinset := by
    rw [List.mem_toFinset]
    intro h
    rcases List.mem_map.mp h with ⟨⟨x, b⟩, hx, hxb⟩
    exact hBnotnew b (by rwa [show x = B from hxb] at hx)
  constructor
  · rintro ⟨hdel, hcol⟩
    have hBbase : B ∉ (cleanupFold A (collectOldLinks s A) s).graph.nodes := by
      rw [bN]
      rw [Finset.mem_sdiff]
      rintro ⟨_, hnot⟩
      exact hnot (List.mem_toFinset.mpr
        (List.mem_filter.mpr ⟨hcol, by simp [hdel]⟩))
    constructor
    · rw [hups, wN]
      rw [Finset.mem_union]
      rintro (h | h)
      · rcases Finset.mem_insert.mp h with h1 | h1
        · exact hBA h1
        · exact hBbase h1
      · exact hBkeys h
    · rw [hups, wD0 B hBA hBnotnew, bD B, if_pos ⟨hcol, hdel⟩]
  · intro hndel
    have hBbase : lookupDoc (cleanupFold A (collectOldLinks s A) s) B
        = lookupDoc s B := by
      rw [bD B, if_neg (by rintro ⟨_, h⟩; exact hndel h)]
    constructor
    · intro hBs
      rw [hups, wN]
      apply Finset.mem_union_left
      apply Finset.mem_insert_of_mem
      rw [bN, Finset.mem_sdiff]
      refine ⟨hBs, ?_⟩
      rw [List.mem_toFinset]
      intro h
      have h2 := List.mem_filter.mp h
      exact hndel (by simpa using h2.2)
    · rw [hups, wD0 B hBA hBnotnew, hBbase]

/-- **C1.** Replace-with-cleanup on an article-over-article upsert:
(1) the cleanup stage removes every edge keyed by the existing
document's own title, and each collected target that is a placeholder
whose every incident edge matches the removed pattern loses both its
node and its blob; (2) if document `A` linked only to placeholder `B`
and the new version of `A` drops that link, `B` ends up absent from
both the graph and the blob store; (3) `B` survives, node and blob
unchanged, when a second edge not of the `(A, B, A)` pattern also
touches it; (4) `B` survives when it has become a full article. -/
theorem c1_replace_with_cleanup :
    (∀ (s : Store) (t : String), WellFormed s →
      isArticleOpt (lookupDoc s t) = true →
      (∀ e ∈ (cleanupFold t (collectOldLinks s t) s).graph.edges,
          e.key ≠ t) ∧
      (∀ l ∈ collectOldLinks s t, delPred s t l →
        l ∉ (cleanupFold t (collectOldLinks s t) s).graph.nodes ∧
        lookupDoc (cleanupFold t (collectOldLinks s t) s) l = none)) ∧
    (∀ (s : Store) (A B : String) (alta : Finset String) (sma : String)
        (seca : List (String × String))
        (oldL : List (String × Finset String)) (alt2 : Finset String)
        (sm2 : String) (sec2 : List (String × String))
        (newL : List (String × Finset String)),
      WellFormed s →
      readDocI s A = some (.article A alta sma seca oldL) →
      (∃ e ∈ s.graph.edges, e.is A B A = true) →
      isProtoOpt (lookupDoc s B) = true →
      (∀ e ∈ s.graph.edges, e.touches B = true → e.is A B A = true) →
      (∀ b, (B, b) ∉ newL) → B ≠ A → (newL.map Prod.fst).Nodup →
      B ∉ (upsertDoc s (.article A alt2 sm2 sec2 newL)).graph.nodes ∧
      lookupDoc (upsertDoc s (.article A alt2 sm2 sec2 newL)) B = none) ∧
    (∀ (s : Store) (A B : String) (alta : Finset String) (sma : String)
        (seca : List (String × String))
        (oldL : List (String × Finset String)) (alt2 : Finset String)
        (sm2 : String) (sec2 : List (String × String))
        (newL : List (String × Finset String)),
      WellFormed s →
      readDocI s A = some (.article A alta sma seca oldL) →
      (∃ e ∈ s.graph.edges, e.is A B A = true) →
      (∃ e2 ∈ s.graph.edges, e2.touches B = true ∧ e2.is A B A = false) →
      (∀ b, (B, b) ∉ newL) → B ≠ A → (newL.map Prod.fst).Nodup →
      B ∈ (upsertDoc s (.article A alt2 sm2 sec2 newL)).graph.nodes ∧
      lookupDoc (upsertDoc s (.article A alt2 sm2 sec2 newL)) B
        = lookupDoc s B) ∧
    (∀ (s : Store) (A B : String) (alta : Finset String) (sma : String)
        (seca : List (String × String))
        (oldL : List (String × Finset String)) (alt2 : Finset String)
        (sm2 : String) (sec2 : List (String × String))
        (newL : List (String × Finset String)),
      WellFormed s →
      readDocI s A = some (.article A alta sma seca oldL) →
      (∃ e ∈ s.graph.edges, e.is A B A = true) →
      isArticleOpt (lookupDoc s B) = true →
      (∀ b, (B, b) ∉ newL) → B ≠ A → (newL.map Prod.fst).Nodup →
      B ∈ (upsertDoc s (.article A alt2 sm2 sec2 newL)).graph.nodes ∧
      lookupDoc (upsertDoc s (.article A alt2 sm2 sec2 newL)) B
        = lookupDoc s B) := by
  have hBnode : ∀ (s : Store) (A B : String),
      WellFormed s → (∃ e ∈ s.graph.edges, e.is A B A = true) →
      B ∈ s.graph.nodes := by
    intro s A B hWF hex
    obtain ⟨e, he, hise⟩ := hex
    simp only [GEdge.is, Bool.and_eq_true, Bool.or_eq_true, beq_iff_eq]
      at hise
    rcases hise.2 with ⟨_, hv⟩ | ⟨hu, _⟩
    · rw [← hv]; exact (hWF.2.2.1 e he).2
    · rw [← hu]; exact (hWF.2.2.1 e he).1
  refine ⟨?_, ?_, ?_, ?_⟩
  · intro s t hWF hart
    obtain ⟨hWF1, hWF2, hWF3, _, hWF5, _, _⟩ := hWF
    obtain ⟨_, bK, bN, bD⟩ := cleanup_base_spec s t hWF1 hWF2 hWF3 hWF5 hart
    refine ⟨bK, ?_⟩
    intro l hl hdel
    constructor
    · rw [bN, Finset.mem_sdiff]
      rintro ⟨_, hnot⟩
      exact hnot (List.mem_toFinset.mpr
        (List.mem_filter.mpr ⟨hl, by simp [hdel]⟩))
    · rw [bD l, if_pos ⟨hl, hdel⟩]
  · intro s A B alta sma seca oldL alt2 sm2 sec2 newL hWF hreadA hex
      hproto htch hBnn hBA hnd
    obtain ⟨e, he, hise⟩ := hex
    exact (upsert_article_target_outcome s A B alta sma seca oldL alt2 sm2
      sec2 newL hWF hreadA hBnn hBA hnd).1
      ⟨⟨hproto, htch⟩, mem_collect_of_is s A B e he hise hBA⟩
  · intro s A B alta sma seca oldL alt2 sm2 sec2 newL hWF hreadA hex hC
      hBnn hBA hnd
    have hndel : ¬ delPred s A B := by
      rintro ⟨_, hall⟩
      obtain ⟨e2, he2, ht2, hf2⟩ := hC
      rw [hall e2 he2 ht2] at hf2
      exact absurd hf2 (by simp)
    have h := (upsert_article_target_outcome s A B alta sma seca oldL alt2
      sm2 sec2 newL hWF hreadA hBnn hBA hnd).2 hndel
    exact ⟨h.1 (hBnode s A B hWF hex), h.2⟩
  · intro s A B alta sma seca oldL alt2 sm2 sec2 newL hWF hreadA hex hartB
      hBnn hBA hnd
    have hndel : ¬ delPred s A B := by
      rintro ⟨hp, _⟩
      exact not_proto_and_article _ hp hartB
    have h := (upsert_article_target_outcome s A B alta sma seca oldL alt2
      sm2 sec2 newL hWF hreadA hBnn hBA hnd).2 hndel
    exact ⟨h.1 (hBnode s A B hWF hex), h.2⟩

/-- Instance of C1's orphan scenario on the concrete `A → B` store: the
new version of `A` drops the link, `B` vanishes from graph and blobs. -/
theorem c1_replace_with_cleanup_witness :
    "B" ∉ (upsertDoc exA (.article "A" ∅ "" [] [])).graph.nodes ∧
    lookupDoc (upsertDoc exA (.article "A" ∅ "" [] [])) "B" = none :=
  c1_replace_with_cleanup.2.1 exA "A" "B" ∅ "" [] [("B", ∅)] ∅ "" [] []
    (by decide) (by decide) ⟨⟨"A", "B", "A"⟩, by decide, by decide⟩
    (by decide) (by decide) (fun b hb => by simp at hb) (by decide)
    (by decide)

/-- A link merge always leaves some blob stored at the target. -/
theorem mergeSpec_some (o : Option Doc) (x : String) (b : Finset String) :
    ∃ d, mergeSpec o x b = some d := by
  cases o with
  | none => exact ⟨_, rfl⟩
  | some d => cases d <;> exact ⟨_, rfl⟩

/-- Merging the same proto-article twice is the same as once: alias
unions absorb repeats. -/
theorem mergeSpec_idem (o : Option Doc) (x : String) (b : Finset String) :
    mergeSpec (mergeSpec o x b) x b = mergeSpec o x b := by
  cases o with
  | none => simp [mergeSpec, Finset.union_self]
  | some d =>
    cases d with
    | proto t0 c => simp [mergeSpec, Finset.union_assoc, Finset.union_self]
    | article t0 al sm se li => rfl

/-- A matching edge's key is the pattern's key. -/
theorem key_eq_of_is (e : GEdge) (a b k : String) (h : e.is a b k = true) :
    e.key = k := by
  simp only [GEdge.is, Bool.and_eq_true, beq_iff_eq] at h
  exact h.1

/-- An edge matching the `(a, b)` pattern touches only `a` and `b`. -/
theorem touches_of_is (e : GEdge) (a b k x : String)
    (hi : e.is a b k = true) (ht : e.touches x = true) : x = a ∨ x = b := by
  simp only [GEdge.is, Bool.and_eq_true, Bool.or_eq_true, beq_iff_eq] at hi
  simp only [GEdge.touches, Bool.or_eq_true, beq_iff_eq] at ht
  rcases hi.2 with ⟨hu, hv⟩ | ⟨hu, hv⟩ <;> rcases ht with h | h
  · rw [h] at hu; exact Or.inl hu
  · rw [h] at hv; exact Or.inr hv
  · rw [h] at hu; exact Or.inr hu
  · rw [h] at hv; exact Or.inl hv

/-- Phase one of an article upsert: whatever was stored at the title,
`_upsert_doc` reduces to `_write_doc` over a cleaned base store that has
no edge keyed by the title, keeps blobs well-keyed, and has no orphaned
proto-article node (every proto-blob node retains an incident edge). -/
theorem upsert_article_base (s : Store) (t : String) (alt : Finset String)
    (sm : String) (secs : List (String × String))
    (links : List (String × Finset String)) (hWF : WellFormed s) :
    ∃ base : Store,
      upsertDoc s (.article t alt sm secs links)
        = writeDocI base (.article t alt sm secs links) true ∧
      (∀ e ∈ base.graph.edges, e.key ≠ t) ∧
      (∀ p ∈ base.docs, (p.2).title = p.1) ∧
      (∀ n ∈ base.graph.nodes, isProtoOpt (lookupDoc base n) = true →
        base.graph.edges.any (·.touches n) = true) := by
  obtain ⟨hWF1, hWF2, hWF3, hWF4, hWF5, hWF6, hWF7⟩ := hWF
  cases hr : readDocI s t with
  | none =>
    refine ⟨s, by simp only [upsertDoc, Doc.title, hr], ?_, hWF4, hWF7⟩
    intro e he hkey
    unfold readDocI at hr
    by_cases hn : t ∈ s.graph.nodes
    · rw [if_pos hn] at hr
      have := hWF6 e he
      rw [hkey, hr] at this
      exact absurd this (by simp [isArticleOpt])
    · rcases hWF1 e he with h | h
      · exact hn (by rw [← hkey, ← h]; exact (hWF3 e he).1)
      · exact hn (by rw [← hkey, ← h]; exact (hWF3 e he).2)
  | some d =>
    have hl : lookupDoc s t = some d := ((readDocI_some_iff s t d).mp hr).2
    cases d with
    | proto t0 a0 =>
      refine ⟨s, by simp only [upsertDoc, Doc.title, hr], ?_, hWF4, hWF7⟩
      intro e he hkey
      have := hWF6 e he
      rw [hkey, hl] at this
      exact absurd this (by simp [isArticleOpt, Doc.isArticle])
    | article rt al0 sm0 se0 li0 =>
      have hrt : rt = t := by
        have := lookupDoc_title s t _ hWF4 hl
        simpa [Doc.title] using this
      subst hrt
      have hart : isArticleOpt (lookupDoc s rt) = true := by
        rw [hl]; rfl
      obtain ⟨bE, bK, bN, bD⟩ :=
        cleanup_base_spec s rt hWF1 hWF2 hWF3 hWF5 hart
      refine ⟨cleanupFold rt (collectOldLinks s rt) s,
        upsertDoc_article_article s rt alt sm secs links rt al0 sm0 se0 li0
          hr, bK, cleanupFold_wellKeyed rt (collectOldLinks s rt) s hWF4,
        ?_⟩
      intro n hn hpr
      rw [bN] at hn
      obtain ⟨hns, hnF⟩ := Finset.mem_sdiff.mp hn
      have hnc : ¬(n ∈ collectOldLinks s rt ∧ delPred s rt n) := by
        rintro ⟨h1, h2⟩
        exact hnF (List.mem_toFinset.mpr
          (List.mem_filter.mpr ⟨h1, decide_eq_true h2⟩))
      have hlk : lookupDoc (cleanupFold rt (collectOldLinks s rt) s) n
          = lookupDoc s n := by
        rw [bD n, if_neg hnc]
      rw [hlk] at hpr
      have hnt : n ≠ rt := by
        rintro rfl
        rw [hl] at hpr
        exact absurd hpr (by simp [isProtoOpt, Doc.isProto])
      have hWFn := hWF7 n hns hpr
      rcases List.any_eq_true.mp hWFn with ⟨e0, he0, ht0⟩
      by_cases hdp : delPred s rt n
      · exact absurd
          ⟨mem_collect_of_is s rt n e0 he0 (hdp.2 e0 he0 ht0) hnt, hdp⟩ hnc
      · have hex : ∃ e, e ∈ s.graph.edges ∧ e.touches n = true ∧
            e.is rt n rt = false := by
          by_contra hc
          push_neg at hc
          refine hdp ⟨hpr, fun e he ht => ?_⟩
          cases h2 : e.is rt n rt with
          | false => exact absurd h2 (hc e he ht)
          | true => rfl
        obtain ⟨e, he, ht, hnotis⟩ := hex
        have hkeep : e ∈ (cleanupFold rt (collectOldLinks s rt) s).graph.edges := by
          rw [bE]
          apply List.mem_filter.mpr
          refine ⟨he, ?_⟩
          have hany : ((collectOldLinks s rt).any
              (fun l => e.is rt l rt)) = false := by
            apply List.any_eq_false.mpr
            intro l _
            cases his : e.is rt l rt with
            | false => simp
            | true =>
              intro _
              rcases touches_of_is e rt l rt n his ht with h | h
              · exact hnt h
              · rw [← h] at his
                rw [hnotis] at his
                exact absurd his (by simp)
          simp [hany]
        exact List.any_eq_true.mpr ⟨e, hkeep, ht⟩

/-- After `_write_doc` of an article over a base with no edge keyed by
the title, the title's outgoing-link targets are exactly the article's
link targets, in order. -/
theorem collect_base_new (s1 : Store) (t : String)
    (links : List (String × Finset String)) (E : List GEdge)
    (hE : s1.graph.edges = E ++ newEdges t links)
    (hk : ∀ e ∈ E, e.key ≠ t) :
    collectOldLinks s1 t = links.map Prod.fst := by
  unfold collectOldLinks
  rw [hE, List.filter_append]
  have h1 : E.filter (fun e => e.touches t && e.key == t) = [] := by
    rw [List.filter_eq_nil_iff]
    intro e he
    simp only [Bool.and_eq_true, beq_iff_eq, not_and]
    intro _
    exact hk e he
  have h2 : (newEdges t links).filter (fun e => e.touches t && e.key == t)
      = newEdges t links := by
    rw [List.filter_eq_self]
    intro e he
    rcases List.mem_map.mp he with ⟨p, _, hp⟩
    rw [← hp]
    simp [GEdge.touches]
  rw [h1, h2, List.nil_append]
  unfold newEdges
  rw [List.map_map]
  simp [Function.comp]

/-- **C6 (amended).** On a well-formed store and an article whose link
targets are distinct, `_upsert_doc` is idempotent: upserting the same
article twice leaves the same graph nodes, the same edge list (no
duplicate edges), and the same readable blob at every title (in
particular no alias set grows) as upserting it once. -/
theorem c6_upsert_idempotent (s : Store) (t : String) (alt : Finset String)
    (sm : String) (secs : List (String × String))
    (links : List (String × Finset String))
    (hWF : WellFormed s) (hnd : (links.map Prod.fst).Nodup) :
    (upsertDoc (upsertDoc s (.article t alt sm secs links))
        (.article t alt sm secs links)).graph.nodes
      = (upsertDoc s (.article t alt sm secs links)).graph.nodes ∧
    (upsertDoc (upsertDoc s (.article t alt sm secs links))
        (.article t alt sm secs links)).graph.edges
      = (upsertDoc s (.article t alt sm secs links)).graph.edges ∧
    ∀ x, lookupDoc (upsertDoc (upsertDoc s (.article t alt sm secs links))
        (.article t alt sm secs links)) x
      = lookupDoc (upsertDoc s (.article t alt sm secs links)) x := by
  obtain ⟨base, hred, B1, B2, B7⟩ :=
    upsert_article_base s t alt sm secs links hWF
  obtain ⟨wE, wN, wK, wT, wD0, wD1⟩ :=
    writeDocI_article_spec base t alt sm secs links hnd B1 B2
  have wE' : (upsertDoc s (.article t alt sm secs links)).graph.edges
      = base.graph.edges ++ newEdges t links := by rw [hred]; exact wE
  have wN' : (upsertDoc s (.article t alt sm secs links)).graph.nodes
      = insert t base.graph.nodes ∪ (links.map Prod.fst).toFinset := by
    rw [hred]; exact wN
  have wK' : ∀ p ∈ (upsertDoc s (.article t alt sm secs links)).docs,
      (p.2).title = p.1 := by rw [hred]; exact wK
  have wT' : lookupDoc (upsertDoc s (.article t alt sm secs links)) t
      = some (.article t alt sm secs links) := by rw [hred]; exact wT
  have wD1' : ∀ x b, x ≠ t → (x, b) ∈ links →
      lookupDoc (upsertDoc s (.article t alt sm secs links)) x
        = mergeSpec (readDocI base x) x b := by
    rw [hred]; exact wD1
  have wD0' : ∀ x, x ≠ t → (∀ b, (x, b) ∉ links) →
      lookupDoc (upsertDoc s (.article t alt sm secs links)) x
        = lookupDoc base x := by
    rw [hred]; exact wD0
  have hcol : collectOldLinks (upsertDoc s (.article t alt sm secs links)) t
      = links.map Prod.fst :=
    collect_base_new _ t links base.graph.edges wE' B1
  have hreadable : ∀ l ∈ links.map Prod.fst,
      l ∈ (upsertDoc s (.article t alt sm secs links)).graph.nodes ∧
      lookupDoc (upsertDoc s (.article t alt sm secs links)) l ≠ none := by
    intro l hl
    have hmemn : l ∈ (upsertDoc s (.article t alt sm secs links)).graph.nodes := by
      rw [wN']
      exact Finset.mem_union_right _ (List.mem_toFinset.mpr hl)
    refine ⟨hmemn, ?_⟩
    by_cases hlt : l = t
    · rw [hlt, wT']; simp
    · rcases List.mem_map.mp hl with ⟨⟨l0, b⟩, hmem, hl0⟩
      dsimp only at hl0
      subst hl0
      rw [wD1' l0 b hlt hmem]
      obtain ⟨d, hd⟩ := mergeSpec_some (readDocI base l0) l0 b
      rw [hd]; simp
  have hart1 : ∀ l ∈ links.map Prod.fst, l = t →
      isArticleOpt (lookupDoc (upsertDoc s (.article t alt sm secs links)) l)
        = true := by
    intro l _ hlt
    rw [hlt, wT']; rfl
  obtain ⟨c2E, c2N, c2D⟩ := cleanupFold_spec t (links.map Prod.fst)
    (upsertDoc s (.article t alt sm secs links)) hnd hreadable hart1
  have hread1 : readDocI (upsertDoc s (.article t alt sm secs links)) t
      = some (.article t alt sm secs links) := by
    apply (readDocI_some_iff _ t _).mpr
    refine ⟨?_, wT'⟩
    rw [wN']
    exact Finset.mem_union_left _ (Finset.mem_insert_self t _)
  have hs2 : upsertDoc (upsertDoc s (.article t alt sm secs links))
        (.article t alt sm secs links)
      = writeDocI (cleanupFold t (links.map Prod.fst)
          (upsertDoc s (.article t alt sm secs links)))
          (.article t alt sm secs links) true := by
    have h := upsertDoc_article_article
      (upsertDoc s (.article t alt sm secs links)) t alt sm secs links
      t alt sm secs links hread1
    rwa [hcol] at h
  have hb2E : (cleanupFold t (links.map Prod.fst)
        (upsertDoc s (.article t alt sm secs links))).graph.edges
      = base.graph.edges := by
    rw [c2E, wE', List.filter_append]
    have h1 : base.graph.edges.filter
        (fun e => !((links.map Prod.fst).any fun l => e.is t l t))
        = base.graph.edges := by
      rw [List.filter_eq_self]
      intro e he
      have hany : ((links.map Prod.fst).any fun l => e.is t l t) = false :=
        List.any_eq_false.mpr
          (fun l _ => by simp [is_false_of_key_ne e t l t (B1 e he)])
      simp [hany]
    have h2 : (newEdges t links).filter
        (fun e => !((links.map Prod.fst).any fun l => e.is t l t)) = [] := by
      rw [List.filter_eq_nil_iff]
      intro e he
      rcases List.mem_map.mp he with ⟨p, hp, hpe⟩
      have hany : ((links.map Prod.fst).any fun l => e.is t l t) = true := by
        apply List.any_eq_true.mpr
        refine ⟨p.1, List.mem_map_of_mem _ hp, ?_⟩
        rw [← hpe]
        simp [GEdge.is]
      simp [hany]
    rw [h1, h2, List.append_nil]
  have hb2K : ∀ e ∈ (cleanupFold t (links.map Prod.fst)
        (upsertDoc s (.article t alt sm secs links))).graph.edges,
      e.key ≠ t := by
    rw [hb2E]; exact B1
  have hb2wk := cleanupFold_wellKeyed t (links.map Prod.fst)
    (upsertDoc s (.article t alt sm secs links)) wK'
  obtain ⟨vE, vN, vK, vT, vD0, vD1⟩ := writeDocI_article_spec
    (cleanupFold t (links.map Prod.fst)
      (upsertDoc s (.article t alt sm secs links)))
    t alt sm secs links hnd hb2K hb2wk
  refine ⟨?_, ?_, ?_⟩
  · rw [hs2, vN, c2N]
    have htS : t ∈ (upsertDoc s (.article t alt sm secs links)).graph.nodes := by
      rw [wN']; exact Finset.mem_union_left _ (Finset.mem_insert_self t _)
    have hkS : (links.map Prod.fst).toFinset
        ⊆ (upsertDoc s (.article t alt sm secs links)).graph.nodes := by
      rw [wN']; exact Finset.subset_union_right
    have hFk : ((links.map Prod.fst).filter (fun l => decide
          (delPred (upsertDoc s (.article t alt sm secs links)) t l))).toFinset
        ⊆ (links.map Prod.fst).toFinset := by
      intro z hz
      exact List.mem_toFinset.mpr
        (List.mem_of_mem_filter (List.mem_toFinset.mp hz))
    ext z
    constructor
    · intro hz
      rcases Finset.mem_union.mp hz with h | h
      · rcases Finset.mem_insert.mp h with h1 | h1
        · rw [h1]; exact htS
        · exact (Finset.mem_sdiff.mp h1).1
      · exact hkS h
    · intro hz
      by_cases hzF : z ∈ ((links.map Prod.fst).filter (fun l => decide
          (delPred (upsertDoc s (.article t alt sm secs links)) t l))).toFinset
      · exact Finset.mem_union_right _ (hFk hzF)
      · exact Finset.mem_union_left _
          (Finset.mem_insert_of_mem (Finset.mem_sdiff.mpr ⟨hz, hzF⟩))
  · rw [hs2, vE, hb2E, wE']
  · intro x
    rw [hs2]
    by_cases hxt : x = t
    · rw [hxt, vT, wT']
    · by_cases hxk : x ∈ links.map Prod.fst
      · rcases List.mem_map.mp hxk with ⟨⟨x0, b⟩, hmemL, hx0⟩
        dsimp only at hx0
        subst hx0
        have h1 := wD1' x0 b hxt hmemL
        by_cases hdp : delPred (upsertDoc s (.article t alt sm secs links))
            t x0
        · have hxF : x0 ∉ (cleanupFold t (links.map Prod.fst)
              (upsertDoc s (.article t alt sm secs links))).graph.nodes := by
            rw [c2N, Finset.mem_sdiff]
            rintro ⟨-, hnot⟩
            exact hnot (List.mem_toFinset.mpr
              (List.mem_filter.mpr ⟨hxk, decide_eq_true hdp⟩))
          have hr2 : readDocI (cleanupFold t (links.map Prod.fst)
              (upsertDoc s (.article t alt sm secs links))) x0 = none := by
            cases hrr : readDocI (cleanupFold t (links.map Prod.fst)
                (upsertDoc s (.article t alt sm secs links))) x0 with
            | none => rfl
            | some d =>
              exact absurd ((readDocI_some_iff _ x0 d).mp hrr).1 hxF
          have hbx : readDocI base x0 = none := by
            cases hb : readDocI base x0 with
            | none => rfl
            | some d =>
              obtain ⟨hbn, hbl⟩ := (readDocI_some_iff base x0 d).mp hb
              have hnotouch : ∀ e ∈ base.graph.edges,
                  e.touches x0 = false := by
                intro e he
                cases hte : e.touches x0 with
                | false => rfl
                | true =>
                  have his := hdp.2 e
                    (by rw [wE']; exact List.mem_append_left _ he) hte
                  exact absurd (key_eq_of_is e t x0 t his) (B1 e he)
              have hproto1 := hdp.1
              rw [h1, hb] at hproto1
              cases d with
              | article t0 al0 sm0 se0 li0 =>
                exact absurd hproto1
                  (by simp [mergeSpec, isProtoOpt, Doc.isProto])
              | proto t0 c =>
                have hP := B7 x0 hbn (by rw [hbl]; rfl)
                rcases List.any_eq_true.mp hP with ⟨e, he, hte⟩
                rw [hnotouch e he] at hte
                exact absurd hte (by simp)
          rw [vD1 x0 b hxt hmemL, hr2, h1, hbx]
        · have hxn2 : x0 ∈ (cleanupFold t (links.map Prod.fst)
              (upsertDoc s (.article t alt sm secs links))).graph.nodes := by
            rw [c2N, Finset.mem_sdiff]
            have hmemn : x0 ∈ (upsertDoc s
                (.article t alt sm secs links)).graph.nodes := by
              rw [wN']
              exact Finset.mem_union_right _ (List.mem_toFinset.mpr hxk)
            refine ⟨hmemn, ?_⟩
            intro hF
            have h2 := List.mem_filter.mp (List.mem_toFinset.mp hF)
            exact hdp (of_decide_eq_true h2.2)
          have hlk2 : lookupDoc (cleanupFold t (links.map Prod.fst)
                (upsertDoc s (.article t alt sm secs links))) x0
              = lookupDoc (upsertDoc s (.article t alt sm secs links)) x0 := by
            rw [c2D x0, if_neg (by rintro ⟨-, h⟩; exact hdp h)]
          obtain ⟨d, hd⟩ := mergeSpec_some (readDocI base x0) x0 b
          have hr2 : readDocI (cleanupFold t (links.map Prod.fst)
                (upsertDoc s (.article t alt sm secs links))) x0
              = some d :=
            (readDocI_some_iff _ x0 d).mpr ⟨hxn2, by rw [hlk2, h1, hd]⟩
          rw [vD1 x0 b hxt hmemL, hr2, h1, ← hd, mergeSpec_idem, hd]
      · have hnl : ∀ b, (x, b) ∉ links := by
          intro b hb
          exact hxk (by simpa using List.mem_map_of_mem Prod.fst hb)
        rw [vD0 x hxt hnl, c2D x, if_neg (by rintro ⟨h, -⟩; exact hxk h)]

/-- Instance of the amended C6 on the concrete well-formed store where
`A` links to placeholder `B` (also linked from `C`): the well-formedness
and distinct-targets hypotheses hold there, and upserting the
replacement article twice equals once. -/
theorem c6_upsert_idempotent_witness :
    (upsertDoc (upsertDoc exW exD) exD).graph.nodes
      = (upsertDoc exW exD).graph.nodes ∧
    (upsertDoc (upsertDoc exW exD) exD).graph.edges
      = (upsertDoc exW exD).graph.edges ∧
    ∀ x, lookupDoc (upsertDoc (upsertDoc exW exD) exD) x
      = lookupDoc (upsertDoc exW exD) x :=
  c6_upsert_idempotent exW "A" {"a"} "s" [] [("B", {"b2"}), ("N", ∅)]
    (by decide) (by decide)

/-- The unqualified claim fails on an ill-formed but representable
snapshot: a graph-only node `t` with a stale authored edge and no blob.
The first upsert treats `t` as new and merges alias-growing protos into
the stale edge's target; the second cleans the now-keyed edge up and
deletes the target's blob, so the stored state changes between the first
and second upsert. -/
theorem c6_idempotence_cex :
    lookupDoc (upsertDoc (upsertDoc exBad exBadD) exBadD) "x"
      ≠ lookupDoc (upsertDoc exBad exBadD) "x" := by decide

end Tequila
